import Mathlib

/-!
Verification of the aibom-cra aggregation and merge engine
(src/aibomcra/generator.py) against its specification.

The Python code is shallowly embedded: JSON values become the inductive
type JVal, Python dicts become association lists with unique keys
(Python dicts cannot hold duplicate keys; lookups here use the first
occurrence, which coincides on such lists), and file input is abstracted
to the loaded contents (the functions under verification are pure
transformations of already-loaded data; the path-existence checks raise
before any of the logic modelled here runs).

Totalization notes, applied consistently below:
- a .get call on a non-dict raises AttributeError in Python; the model
  returns the default there, and theorems about arbitrary inputs carry
  well-formedness hypotheses restricting to the faithful cases;
- comparing a non-number with a number, or a non-string with a string,
  raises TypeError inside Python's sorted; the boolean comparison
  functions below pick an arbitrary total answer there and theorems
  restrict to string/number-valued fields;
- iterating a Python value that is not a list raises TypeError for
  numbers and True; the model iterates lists and returns the empty list
  otherwise, with hypotheses excluding the raising cases where relevant.
-/

mutual

/-- A JSON value as held in Python memory after json.load. -/
inductive JVal where
  | null
  | bool (b : Bool)
  | num (q : Rat)
  | str (s : String)
  | arr (xs : JArr)
  | obj (kvs : JObjL)
  deriving DecidableEq
/-- A JSON array (spine of JVal values). -/
inductive JArr where
  | nil
  | cons (hd : JVal) (tl : JArr)
  deriving DecidableEq

/-- A JSON object (spine of key-value pairs, keys unique as in a Python dict). -/
inductive JObjL where
  | onil
  | ocons (k : String) (v : JVal) (tl : JObjL)
  deriving DecidableEq
end

/-- A Python dict with JSON values, as an association list (unique keys). -/

abbrev Jobj := List (String × JVal)

def JArr.toList : JArr → List JVal
  | .nil => []
  | .cons x xs => x :: xs.toList

def JObjL.toList : JObjL → Jobj
  | .onil => []
  | .ocons k v t => (k, v) :: t.toList

def listToJArr : List JVal → JArr
  | [] => .nil
  | x :: xs => .cons x (listToJArr xs)

def listToJObjL : Jobj → JObjL
  | [] => .onil
  | (k, v) :: t => .ocons k v (listToJObjL t)

/-- Helper to build a JSON object literal. -/
def mkObj (l : Jobj) : JVal := .obj (listToJObjL l)

/-- Helper to build a JSON array literal. -/
def mkArr (l : List JVal) : JVal := .arr (listToJArr l)

/-- Python dict lookup with default (d.get(k, dflt)) on an association
list; first occurrence wins, which matches Python exactly on the
duplicate-free key lists a Python dict can hold. -/
def jgetL (d : Jobj) (k : String) (dflt : JVal) : JVal :=
  match d with
  | [] => dflt
  | kv :: t => if kv.1 == k then kv.2 else jgetL t k dflt

/-- Python membership test: k in d. -/
def hasKeyL (d : Jobj) (k : String) : Bool :=
  match d with
  | [] => false
  | kv :: t => kv.1 == k || hasKeyL t k

/-- Python v.get(k, dflt) on a JSON value. Python raises AttributeError
when v is not a dict; the model returns the default there. -/
def jget (v : JVal) (k : String) (dflt : JVal) : JVal :=
  match v with
  | .obj kvs => jgetL kvs.toList k dflt
  | _ => dflt

/-- Python truthiness of a JSON value (bool(v)). -/
def truthy : JVal → Bool
  | .null => false
  | .bool b => b
  | .num q => !(q == 0)
  | .str s => !(s == "")
  | .arr .nil => false
  | .arr (.cons _ _) => true
  | .obj .onil => false
  | .obj (.ocons _ _ _) => true

/-- Python's a or b: a when a is truthy, else b. -/
def pyOr (a b : JVal) : JVal := if truthy a then a else b

/-- Boolean list membership by decidable equality; models Python's
set and dict key membership tests uniformly. -/
def memB {kappa : Type} [DecidableEq kappa] (k : kappa) (ks : List kappa) : Bool :=
  ks.any (fun x => decide (x = k))

/-- Python iteration over a value expected to be a list. Iterating a
non-list raises TypeError for numbers and True in Python (strings and
dicts iterate to characters and keys, which every downstream use here
filters out or defaults on, so the empty list is faithful for those);
theorems over arbitrary inputs exclude the raising cases. -/
def asItems : JVal → List JVal
  | .arr xs => xs.toList
  | _ => []

/-- True when iterating pyOr v [] cannot raise in Python: v is a list,
or v is falsy (then the empty list is iterated). Strings and dicts also
iterate without raising; they are conservatively excluded here and
handled by the remark on asItems. -/
def iterOk : JVal → Bool
  | .arr _ => true
  | v => !(truthy v)

/-! ## Runtime-dependency reader (parse_requirements, generator.py lines 32-51)

The file is abstracted to its list of lines. The regex
of line 38 is modelled by the deterministic matcher pinMatch below:
the token class [A-Za-z0-9_.-] contains neither whitespace nor the
equals sign, so the regex engine's greedy token match never needs to
backtrack and the matcher below recognises exactly the same lines. -/

/-- Membership in the regex token class [A-Za-z0-9_.-]. Char.isAlphanum
is ASCII-only, exactly like the regex class. -/
def isTokChar (c : Char) : Bool := c.isAlphanum || c == '.' || c == '_' || c == '-'

/-- ASCII whitespace as matched by the regex escape for whitespace and
stripped by str.strip(). -/
def isWs (c : Char) : Bool := c == ' ' || c == '\t' || c == '\n' || c == '\r'

/-- Python str.strip(): remove leading and trailing whitespace. -/
def pyStrip (s : String) : String :=
  String.mk (((s.data.dropWhile isWs).reverse.dropWhile isWs).reverse)

/-- The anchored pattern of generator.py line 38: optional whitespace,
a token, optional whitespace, two equals signs, optional whitespace, a
token, optional whitespace, end. Returns the two captured groups. -/
def pinMatch (line : String) : Option (String × String) :=
  let cs := line.data.dropWhile isWs
  let name := cs.takeWhile isTokChar
  let rest := (cs.dropWhile isTokChar).dropWhile isWs
  match rest with
  | '=' :: '=' :: r1 =>
    let r2 := r1.dropWhile isWs
    let ver := r2.takeWhile isTokChar
    let r3 := (r2.dropWhile isTokChar).dropWhile isWs
    if name ≠ [] && ver ≠ [] && r3 = [] then some (String.mk name, String.mk ver)
    else none
  | _ => none

/-- A pinned dependency record: dict literal of generator.py line 47. -/
def pinComp (n v : String) : Jobj :=
  [("name", .str n), ("version", .str v), ("type", .str "python")]

/-- A best-effort name-only record: dict literal of generator.py line 50. -/
def bareComp (line : String) : Jobj :=
  [("name", .str line), ("version", .str ""), ("type", .str "python")]

/-- The record appended for one stripped, kept line. -/
def lineComp (line : String) : Jobj :=
  match pinMatch line with
  | some (n, v) => pinComp n v
  | none => bareComp line

/-- True when a stripped line is processed (not blank, not a comment). -/
def keepLine (line : String) : Bool :=
  !(line == "") && !(line.data.head? == some '#')

/-- parse_requirements (generator.py lines 32-51) over the lines of the
requirements file. Every line is stripped; blank and comment lines are
skipped; each remaining line appends exactly one record. -/
def parse_requirements (lines : List String) : List Jobj :=
  lines.foldl
    (fun deps rawLine =>
      let line := pyStrip rawLine
      if keepLine line then deps ++ [lineComp line] else deps)
    []

/-! ## Shallow validator (validate_aibom, generator.py lines 200-210) -/

def isObj : JVal → Bool
  | .obj _ => true
  | _ => false

def isArr : JVal → Bool
  | .arr _ => true
  | _ => false

/-- validate_aibom (generator.py lines 200-210): total function from any
JSON value to a pass flag and a list of error strings; it cannot raise. -/
def validate_aibom (aibom : JVal) : Bool × List String :=
  if !(isObj aibom) then (false, ["AIBOM must be a JSON object"])
  else
    let md := jget aibom "metadata" .null
    let comps := jget aibom "components" .null
    let errors :=
      (if isObj md then [] else ["metadata missing or not an object"]) ++
      (if isArr comps then [] else ["components missing or not a list"])
    (decide (errors.length = 0), errors)

/-! ## Generic stable sort (Python's sorted is a stable sort)

stableSort le processes the list from the right and inserts each element
before the first later element b with le a b; taking le a b to mean
"key a precedes-or-ties key b", this is exactly a stable sort: an
element goes after every strictly-smaller-keyed element and before every
tied one that occurred later. -/

def stableInsert (le : α → α → Bool) (a : α) : List α → List α
  | [] => [a]
  | b :: l => if le a b then a :: b :: l else b :: stableInsert le a l

def stableSort (le : α → α → Bool) : List α → List α
  | [] => []
  | a :: l => stableInsert le a (stableSort le l)

/-- Boolean lexicographic order on character lists; reflects Python's
comparison of the strings the code sorts (Python compares code points,
as the Char order here does). -/
def lexLt : List Char → List Char → Bool
  | [], [] => false
  | [], _ :: _ => true
  | _ :: _, [] => false
  | x :: xs, y :: ys => if x < y then true else if y < x then false else lexLt xs ys

def strLtB (a b : String) : Bool := lexLt a.data b.data

def strLeB (a b : String) : Bool := strLtB a b || a == b

/-- Comparison used by sorted on the affects reference lists. Python
compares the string references lexicographically and raises TypeError on
a non-string; the model answers true there and theorems about order
independence restrict to string references. -/
def refLeB (a b : JVal) : Bool :=
  match a, b with
  | .str x, .str y => strLeB x y
  | _, _ => true

/-! ## Imported-SBOM reader (import_cyclonedx_sbom, generator.py lines 54-124) -/

/-- Normalized component record (generator.py lines 71-78). -/
def normComponent (c : JVal) : Jobj :=
  [("name", jget c "name" .null),
   ("version", jget c "version" (.str "")),
   ("bom_ref", pyOr (jget c "bom-ref" .null) (jget c "bom_ref" .null)),
   ("purl", jget c "purl" .null),
   ("type", jget c "type" (.str "library")),
   ("source", .str "cyclonedx")]

/-- The components list one document contributes (lines 66, 69-78). -/
def docComponents (d : JVal) : List Jobj :=
  (asItems (pyOr (jget d "components" (mkArr [])) (mkArr []))).map normComponent

/-- Identifier fallthrough of line 82: id or bom-ref or name, where
Python's or skips falsy values (None, empty string, zero, ...). -/
def resolveVid (v : JVal) : JVal :=
  pyOr (jget v "id" .null) (pyOr (jget v "bom-ref" .null) (jget v "name" .null))

/-- Affected references of lines 83-87: each entry's ref or bom-ref,
kept only when truthy. -/
def collectAffects (v : JVal) : List JVal :=
  (asItems (pyOr (jget v "affects" (mkArr [])) (mkArr []))).foldl
    (fun acc aff =>
      let ref := pyOr (jget aff "ref" .null) (jget aff "bom-ref" .null)
      if truthy ref then acc ++ [ref] else acc) []

/-- Python numeric view of a rating score for comparison; bools compare
as 0 and 1 in Python. Comparing anything else with a number raises
TypeError; the model answers arbitrarily and theorems restrict to
numeric scores. -/
def toNumQ : JVal → Option Rat
  | .num q => some q
  | .bool b => some (if b then 1 else 0)
  | _ => none

/-- The sort key of line 92: r.get("score", 0). -/
def scoreOf (r : JVal) : JVal := jget r "score" (.num 0)

/-- Rating r may precede rating s in the reverse (descending) stable
sort of lines 92-93: score of r is at least score of s. -/
def ratingGeB (r s : JVal) : Bool :=
  match toNumQ (scoreOf r), toNumQ (scoreOf s) with
  | some a, some b => decide (b ≤ a)
  | _, _ => true

/-- The ratings list of line 89 (v.get("ratings") or []). -/
def ratingsOf (v : JVal) : List JVal :=
  asItems (pyOr (jget v "ratings" .null) (mkArr []))

/-- Lines 90-93: the first element of the ratings sorted by descending
score, or None when the ratings list is empty. -/
def bestRating (v : JVal) : JVal :=
  match stableSort ratingGeB (ratingsOf v) with
  | [] => .null
  | r :: _ => r

/-- Normalized vulnerability record (generator.py lines 94-100). -/
def normVuln (v : JVal) : Jobj :=
  [("id", resolveVid v),
   ("source", jget (pyOr (jget v "source" (mkObj [])) (mkObj [])) "name" (.str "trivy")),
   ("severity", jget (pyOr (bestRating v) (mkObj [])) "severity" .null),
   ("score", jget (pyOr (bestRating v) (mkObj [])) "score" .null),
   ("affects", mkArr (collectAffects v))]

/-- The vulnerabilities list one document contributes (lines 67, 80-100). -/
def docVulns (d : JVal) : List Jobj :=
  (asItems (pyOr (jget d "vulnerabilities" (mkArr [])) (mkArr []))).map normVuln

/-- The aggregation key of line 110: (name, version, type) of the
normalized component, looked up with no default. -/
def compKey3 (c : Jobj) : JVal × JVal × JVal :=
  (jgetL c "name" .null, jgetL c "version" .null, jgetL c "type" .null)

/-- Component aggregation across documents (lines 103-113): a single
pass keeping each component whose key has not been seen; the seen set
is modelled as the list of keys in insertion order (membership is all
that is used). -/
def import_components (docs : List JVal) : List Jobj :=
  (docs.foldl (fun st d =>
    (docComponents d).foldl (fun st c =>
      let key := compKey3 c
      if memB key st.1 then st else (st.1 ++ [key], st.2 ++ [c])) st)
    (([], []) : List (JVal × JVal × JVal) × List Jobj)).2

/-- The affects list of a normalized vulnerability, sorted (line 119:
tuple(sorted(v.get("affects") or []))). -/
def sortedAffects (v : Jobj) : List JVal :=
  stableSort refLeB (asItems (pyOr (jgetL v "affects" .null) (mkArr [])))

/-- The deduplication key of line 119: (id, sorted affects tuple). -/
def vulnKey (v : Jobj) : JVal × List JVal :=
  (jgetL v "id" .null, sortedAffects v)

/-- Vulnerability deduplication (lines 116-122): an insertion-ordered
dict from key to the first record with that key, then its values. -/
def dedup_vulns (vs : List Jobj) : List Jobj :=
  (vs.foldl (fun m v =>
    let key := vulnKey v
    if memB key (m.map Prod.fst) then m else m ++ [(key, v)])
    ([] : List ((JVal × List JVal) × Jobj))).map Prod.snd

/-- import_cyclonedx_sbom (lines 54-124) over the loaded documents. The
source's single loop over paths feeds two accumulators that never
interact; they are modelled as one pass each, yielding the same pair. -/
def import_cyclonedx_sbom (docs : List JVal) : List Jobj × List Jobj :=
  (import_components docs, dedup_vulns (docs.flatMap docVulns))

/-! ## Merge engine (_merge_components, generator.py lines 127-140) -/

/-- The merge identity key of lines 130 and 133: (name, type) with empty
string defaults. -/
def compKey (c : Jobj) : JVal × JVal :=
  (jgetL c "name" (.str ""), jgetL c "type" (.str ""))

/-- The dict comprehension of lines 136-137: the items of c whose value
is neither None nor the empty string. -/
def nonEmptyItems (c : Jobj) : Jobj :=
  c.filter (fun kv => !(kv.2 == JVal.null) && !(kv.2 == JVal.str ""))

/-- Python dict union as in a double-splat literal: every key of a,
updated with b's value when b also has the key, followed by the keys
only b has, in b's order. -/
def dunion (a b : Jobj) : Jobj :=
  a.map (fun kv => (kv.1, jgetL b kv.1 kv.2)) ++
  b.filter (fun kv => !(hasKeyL a kv.1))

/-- The update of lines 136-137: old record updated with the non-empty,
non-null fields of the imported record. -/
def pyUpdate (old c : Jobj) : Jobj := dunion old (nonEmptyItems c)

/-- Assignment into the insertion-ordered dict by_key: an existing key
keeps its slot and gets the new value, a new key is appended. -/
def upsert (m : List ((JVal × JVal) × Jobj)) (k : JVal × JVal) (v : Jobj) :
    List ((JVal × JVal) × Jobj) :=
  if memB k (m.map Prod.fst) then
    m.map (fun kv => if kv.1 = k then (k, v) else kv)
  else m ++ [(k, v)]

/-- One step of the imported-component loop (lines 132-139). -/
def mergeStep (prefer_imported : Bool) (m : List ((JVal × JVal) × Jobj)) (c : Jobj) :
    List ((JVal × JVal) × Jobj) :=
  let key := compKey c
  match m.find? (fun kv => decide (kv.1 = key)) with
  | some kv =>
    if prefer_imported then upsert m key (pyUpdate kv.2 c) else m
  | none => m ++ [(key, c)]

/-- Totalized string view of a sort-key field. Line 140 compares the
raw values and would raise TypeError on a non-string; theorems needing
faithful ordering restrict to string-valued name and type fields. -/
def asStr : JVal → String
  | .str s => s
  | _ => ""

/-- The sort key of line 140: (type, name) with empty-string defaults. -/
def sortPair (c : Jobj) : String × String :=
  (asStr (jgetL c "type" (.str "")), asStr (jgetL c "name" (.str "")))

/-- Lexicographic comparison of two (type, name) sort keys. -/
def pairLeB (a b : String × String) : Bool :=
  strLtB a.1 b.1 || (a.1 == b.1 && strLeB a.2 b.2)

/-- Record comparison used by the final sorted of line 140. -/
def compLeB (a b : Jobj) : Bool := pairLeB (sortPair a) (sortPair b)

/-- _merge_components (generator.py lines 127-140). -/
def merge_components (primary imported : List Jobj) (prefer_imported : Bool) :
    List Jobj :=
  let m1 := primary.foldl (fun m c => upsert m (compKey c) c) []
  let m2 := imported.foldl (mergeStep prefer_imported) m1
  stableSort compLeB (m2.map Prod.snd)

/-! ## Document assembly (generate_aibom, generator.py lines 143-197) -/

/-- Python's falsy-string fallback: s or dflt. -/
def pyOrStr (s dflt : String) : String := if s == "" then dflt else s

/-- The generation options (dataclasses.py), with every file input
abstracted to its loaded contents: system is the loaded manifest object
(empty when no path was given), reqLines the lines of the requirements
file, import_sbom the loaded SBOM documents. -/
structure GenerateOptions where
  model_id : String
  system : Jobj := []
  reqLines : List String := []
  import_sbom : List JVal := []
  fmt : String := "cyclonedx"
  offline : Bool := false
  prefer_imported : Bool := false

/-- The model component of lines 150-154. -/
def model_component (model_id : String) : Jobj :=
  [("name", .str (pyOrStr model_id "<unknown-model>")),
   ("type", .str "ai-model"),
   ("source", .str "huggingface")]

/-- A runtime component (lines 156-160). The name lookup is a plain
subscript in the source, which always succeeds on parse_requirements
records; the model defaults to None there. -/
def runtimeComp (d : Jobj) : Jobj :=
  [("name", jgetL d "name" .null),
   ("version", jgetL d "version" (.str "")),
   ("type", .str "python"),
   ("source", .str "requirements")]

/-- A system component (lines 165-170). -/
def systemComp (comp : Jobj) : Jobj :=
  [("name", jgetL comp "name" .null),
   ("version", jgetL comp "version" (.str "")),
   ("type", jgetL comp "type" (.str "os")),
   ("source", .str "system-manifest")]

/-- The system components of lines 162-170: object entries of the
manifest's system_components array; other entries are skipped. -/
def system_components (system : Jobj) : List Jobj :=
  (asItems (pyOr (jgetL system "system_components" .null) (mkArr []))).foldl
    (fun acc comp =>
      match comp with
      | .obj kvs => acc ++ [systemComp kvs.toList]
      | _ => acc) []

/-- The assembled document: the three top-level entries of the output
dict, with the optional vulnerabilities key as an Option. -/
structure AIBom where
  metadata : Jobj
  components : List Jobj
  vulnerabilities : Option (List Jobj)

/-- generate_aibom (generator.py lines 143-197). The timestamp of line
183 is passed in as now (the one non-deterministic input). -/
def generate_aibom (options : GenerateOptions) (now : String) : AIBom :=
  let system := options.system
  let reqs := parse_requirements options.reqLines
  let imported := import_cyclonedx_sbom options.import_sbom
  let merged := merge_components
    (model_component options.model_id :: (reqs.map runtimeComp ++ system_components system))
    imported.1 options.prefer_imported
  { metadata :=
      [("tool", .str "aibom-cra"),
       ("version", .str "0.1.0"),
       ("generated", .str now),
       ("format", .str options.fmt),
       ("artifact_id", jgetL system "artifact_id" .null),
       ("producer", jgetL system "producer" .null),
       ("model_id", .str options.model_id),
       ("offline", .bool options.offline)],
    components := merged,
    vulnerabilities := if imported.2 = [] then none else some imported.2 }

/-! ## Specification-side dedup (first occurrence per key wins)

keepFirstBy is the order-independent statement of the spec's
first-occurrence-wins rule, used to compare the implementation's
fold-with-seen-set against the specified behaviour. -/

def keepFirstBy {κ : Type} [DecidableEq κ] (key : α → κ) : List α → List α
  | [] => []
  | a :: l => a :: keepFirstBy key (l.filter (fun b => decide (key b ≠ key a)))
  termination_by l => l.length
  decreasing_by
    simp only [List.length_cons]
    exact Nat.lt_succ_of_le (List.length_filter_le _ _)

/-! ## Auxiliary definitions used by the theorems below -/

/-- The element that ends up first in the stable descending insertion:
the first element among those maximal for le. -/
def firstMaxBy (le : α → α → Bool) : List α → Option α
  | [] => none
  | a :: l =>
    match firstMaxBy le l with
    | none => some a
    | some b => if le a b then some a else some b

/-- Generalisation of keepFirstBy carrying the already-seen keys. -/
def keepFirstByAvoid {κ : Type} [DecidableEq κ] (key : α → κ) (ks : List κ) :
    List α → List α
  | [] => []
  | a :: l =>
    if key a ∈ ks then keepFirstByAvoid key ks l
    else a :: keepFirstByAvoid key (ks ++ [key a]) l

/-- Document whose components array holds one record (name a, version 1). -/
def ceDoc1 : JVal :=
  mkObj [("components", mkArr [mkObj [("name", .str "a"), ("version", .str "1")]])]

/-- Document whose components array holds one record (name a, version 2). -/
def ceDoc2 : JVal :=
  mkObj [("components", mkArr [mkObj [("name", .str "a"), ("version", .str "2")]])]

/-- Document with two vulnerability entries sharing id CVE-1 whose
affects arrays denote the same set but different multisets. -/
def ceVulnDoc : JVal := mkObj [("vulnerabilities", mkArr [
  mkObj [("id", .str "CVE-1"),
         ("affects", mkArr [mkObj [("ref", .str "a")], mkObj [("ref", .str "a")]])],
  mkObj [("id", .str "CVE-1"),
         ("affects", mkArr [mkObj [("ref", .str "a")]])]])]

/-- The value is a JSON string. -/
def isStrV : JVal → Prop := fun v => ∃ s, v = JVal.str s

/-- Numeric value of a rating's resolved score (absent score counts 0). -/
def scoreQ (r : JVal) : Rat := (toNumQ (scoreOf r)).getD 0

/-- Vulnerability entry with four ratings: a tie at the top score
between the second and third, plus one rating with no score. -/
def v5c : JVal := mkObj [("ratings", mkArr [
  mkObj [("score", .num 3), ("severity", .str "low")],
  mkObj [("score", .num 7), ("severity", .str "high1")],
  mkObj [("score", .num 7), ("severity", .str "high2")],
  mkObj [("severity", .str "noscore")]])]

/-- True when the imported record supplies field k with a value that is
neither None nor the empty string, so that the dict-comprehension of
lines 136-137 carries it into the update. -/
def keepsField (c : Jobj) (k : String) : Bool :=
  hasKeyL c k && (!(jgetL c k .null == JVal.null) && !(jgetL c k .null == JVal.str ""))

/-- Well-formedness of the by_key mapping: every stored record's merge
key is its index key and the keys are unique. -/
def ByKeyWF (m : List ((JVal × JVal) × Jobj)) : Prop :=
  (∀ kv ∈ m, compKey kv.2 = kv.1) ∧ ((m.map Prod.fst).Nodup)

/-- The record's looked-up name and type fields are strings (always the
case for records coming out of a real run; the empty-string defaults
make absent fields strings as well). -/
def StrWF (c : Jobj) : Prop :=
  isStrV (jgetL c "name" (.str "")) ∧ isStrV (jgetL c "type" (.str ""))

/-- All stored records of a by_key mapping satisfy Q. -/
def ValsP (Q : Jobj → Prop) (m : List ((JVal × JVal) × Jobj)) : Prop :=
  ∀ kv ∈ m, Q kv.2

/-- Document contributing two components that differ only in version. -/
def ceDoc3 : JVal := mkObj [("components", mkArr [
  mkObj [("name", .str "a"), ("version", .str "1")],
  mkObj [("name", .str "a"), ("version", .str "2")]])]

/-- The two-part invariant carried through the merge folds for C9: the
stored records are keyed by their own merge key, and the key K is
present. -/
def KeyInv (K : JVal × JVal) (m : List ((JVal × JVal) × Jobj)) : Prop :=
  (∀ kv ∈ m, compKey kv.2 = kv.1) ∧ K ∈ m.map Prod.fst

/-! ## Lemma infrastructure: stable sort -/

theorem stableInsert_perm (le : α → α → Bool) (a : α) :
    ∀ l : List α, (stableInsert le a l).Perm (a :: l) := by
  intro l
  induction l with
  | nil => simp [stableInsert]
  | cons b t ih =>
    simp only [stableInsert]
    split
    · exact List.Perm.refl _
    · exact (List.Perm.cons b ih).trans (List.Perm.swap a b t)

theorem stableSort_perm (le : α → α → Bool) :
    ∀ l : List α, (stableSort le l).Perm l := by
  intro l
  induction l with
  | nil => simp [stableSort]
  | cons a t ih =>
    exact (stableInsert_perm le a (stableSort le t)).trans (List.Perm.cons a ih)

theorem mem_stableSort (le : α → α → Bool) (l : List α) (x : α) :
    x ∈ stableSort le l ↔ x ∈ l :=
  (stableSort_perm le l).mem_iff

theorem mem_stableInsert (le : α → α → Bool) (a : α) (l : List α) (x : α) :
    x ∈ stableInsert le a l ↔ x = a ∨ x ∈ l := by
  rw [(stableInsert_perm le a l).mem_iff, List.mem_cons]

theorem pairwise_stableInsert (le : α → α → Bool) (P : α → Prop)
    (htot : ∀ x y, P x → P y → le x y || le y x)
    (htrans : ∀ x y z, P x → P y → P z → le x y = true → le y z = true → le x z = true)
    (a : α) (ha : P a) :
    ∀ l : List α, (∀ x ∈ l, P x) → l.Pairwise (fun x y => le x y = true) →
      (stableInsert le a l).Pairwise (fun x y => le x y = true) := by
  intro l
  induction l with
  | nil => simp [stableInsert]
  | cons b t ih =>
    intro hP hpw
    have hPb : P b := hP b (by simp)
    have hPt : ∀ x ∈ t, P x := fun x hx => hP x (by simp [hx])
    rw [List.pairwise_cons] at hpw
    simp only [stableInsert]
    split
    · rename_i hab
      refine List.pairwise_cons.mpr ⟨?_, List.pairwise_cons.mpr ⟨hpw.1, hpw.2⟩⟩
      intro x hx
      rcases List.mem_cons.mp hx with h | h
      · exact h ▸ hab
      · exact htrans a b x ha hPb (hPt x h) hab (hpw.1 x h)
    · rename_i hab
      have hba : le b a = true := by
        have := htot a b ha hPb
        simp [hab] at this
        exact this
      refine List.pairwise_cons.mpr ⟨?_, ih hPt hpw.2⟩
      intro x hx
      rcases (mem_stableInsert le a t x).mp hx with h | h
      · exact h ▸ hba
      · exact hpw.1 x h

theorem pairwise_stableSort (le : α → α → Bool) (P : α → Prop)
    (htot : ∀ x y, P x → P y → le x y || le y x)
    (htrans : ∀ x y z, P x → P y → P z → le x y = true → le y z = true → le x z = true) :
    ∀ l : List α, (∀ x ∈ l, P x) →
      (stableSort le l).Pairwise (fun x y => le x y = true) := by
  intro l
  induction l with
  | nil => simp [stableSort]
  | cons a t ih =>
    intro hP
    have hPt : ∀ x ∈ t, P x := fun x hx => hP x (by simp [hx])
    refine pairwise_stableInsert le P htot htrans a (hP a (by simp)) _ ?_ (ih hPt)
    intro x hx
    exact hPt x ((mem_stableSort le t x).mp hx)

theorem stableSort_eq_nil_iff (le : α → α → Bool) (l : List α) :
    stableSort le l = [] ↔ l = [] := by
  constructor
  · intro h
    have := stableSort_perm le l
    rw [h] at this
    exact this.symm.eq_nil
  · intro h; simp [h, stableSort]

theorem head?_stableSort (le : α → α → Bool) :
    ∀ l : List α, (stableSort le l).head? = firstMaxBy le l := by
  intro l
  induction l with
  | nil => simp [stableSort, firstMaxBy]
  | cons a t ih =>
    simp only [stableSort, firstMaxBy]
    cases ht : stableSort le t with
    | nil =>
      have : t = [] := (stableSort_eq_nil_iff le t).mp ht
      subst this
      simp [firstMaxBy, stableInsert]
    | cons b s =>
      rw [ht] at ih
      rw [← ih]
      simp only [List.head?, stableInsert]
      by_cases h : le a b
      · simp [h]
      · simp [h]

theorem firstMaxBy_eq_none_iff (le : α → α → Bool) (l : List α) :
    firstMaxBy le l = none ↔ l = [] := by
  cases l with
  | nil => simp [firstMaxBy]
  | cons a t =>
    simp only [firstMaxBy]
    cases firstMaxBy le t with
    | none => simp
    | some b =>
      by_cases h : le a b
      · simp [h]
      · simp [h]

theorem firstMaxBy_argmax (le : α → α → Bool) (k : α → Rat) :
    ∀ l : List α, (∀ x ∈ l, ∀ y ∈ l, le x y = decide (k y ≤ k x)) →
      ∀ b, firstMaxBy le l = some b →
        ∃ l1 l2, l = l1 ++ b :: l2 ∧ (∀ x ∈ l1, k x < k b) ∧ (∀ x ∈ l2, k x ≤ k b) := by
  intro l
  induction l with
  | nil => simp [firstMaxBy]
  | cons a t ih =>
    intro hk b hb
    have hkt : ∀ x ∈ t, ∀ y ∈ t, le x y = decide (k y ≤ k x) := by
      intro x hx y hy
      exact hk x (by simp [hx]) y (by simp [hy])
    simp only [firstMaxBy] at hb
    cases hfm : firstMaxBy le t with
    | none =>
      have ht : t = [] := (firstMaxBy_eq_none_iff le t).mp hfm
      subst ht
      rw [hfm] at hb
      have hb' : some a = some b := hb
      simp at hb'
      exact ⟨[], [], by simp [hb'], by simp, by simp⟩
    | some c =>
      rw [hfm] at hb
      have hb' : (if le a c then some a else some c) = some b := hb
      have hc : c ∈ t := by
        obtain ⟨l1, l2, hdec, _, _⟩ := ih hkt c hfm
        rw [hdec]; simp
      obtain ⟨l1, l2, hdec, h1, h2⟩ := ih hkt c hfm
      have hlac : le a c = decide (k c ≤ k a) :=
        hk a (by simp) c (by simp [hc])
      by_cases hca : k c ≤ k a
      · have : le a c = true := by rw [hlac]; simp [hca]
        rw [this] at hb'
        simp at hb'
        subst hb'
        refine ⟨[], t, by simp, by simp, ?_⟩
        intro x hx
        rw [hdec] at hx
        rcases List.mem_append.mp hx with h | h
        · exact le_of_lt (lt_of_lt_of_le (h1 x h) hca)
        · rcases List.mem_cons.mp h with h | h
          · exact h ▸ hca
          · exact le_trans (h2 x h) hca
      · have : le a c = false := by rw [hlac]; simp [hca]
        rw [this] at hb'
        simp at hb'
        subst hb'
        refine ⟨a :: l1, l2, by simp [hdec], ?_, h2⟩
        intro x hx
        rcases List.mem_cons.mp hx with h | h
        · exact h ▸ lt_of_not_le hca
        · exact h1 x h

/-! ## Lemma infrastructure: lexicographic string order -/

theorem lexLt_irrefl : ∀ l : List Char, lexLt l l = false := by
  intro l
  induction l with
  | nil => simp [lexLt]
  | cons x xs ih => simp [lexLt, ih]

theorem lexLt_trans :
    ∀ a b c : List Char, lexLt a b = true → lexLt b c = true → lexLt a c = true := by
  intro a
  induction a with
  | nil =>
    intro b c hab hbc
    cases b with
    | nil => simp [lexLt] at hab
    | cons y ys =>
      cases c with
      | nil => simp [lexLt] at hbc
      | cons z zs => simp [lexLt]
  | cons x xs ih =>
    intro b c hab hbc
    cases b with
    | nil => simp [lexLt] at hab
    | cons y ys =>
      cases c with
      | nil => simp [lexLt] at hbc
      | cons z zs =>
        simp only [lexLt] at hab hbc ⊢
        split at hab
        · rename_i hxy
          split at hbc
          · rename_i hyz
            simp [lt_trans hxy hyz]
          · split at hbc
            · simp at hbc
            · rename_i h1 h2
              have hyz : y = z := le_antisymm (not_lt.mp h2) (not_lt.mp h1)
              subst hyz
              simp [hxy]
        · split at hab
          · simp at hab
          · rename_i h1 h2
            have hxy : x = y := le_antisymm (not_lt.mp h2) (not_lt.mp h1)
            subst hxy
            split at hbc
            · rename_i hyz
              simp [hyz]
            · split at hbc
              · simp at hbc
              · rename_i h3 h4
                have hyz : x = z := le_antisymm (not_lt.mp h4) (not_lt.mp h3)
                subst hyz
                simp only [lt_irrefl, if_neg (lt_irrefl x), if_false]
                exact ih ys zs hab hbc

theorem lexLt_connex :
    ∀ a b : List Char, lexLt a b = false → lexLt b a = false → a = b := by
  intro a
  induction a with
  | nil =>
    intro b hab _
    cases b with
    | nil => rfl
    | cons y ys => simp [lexLt] at hab
  | cons x xs ih =>
    intro b hab hba
    cases b with
    | nil => simp [lexLt] at hba
    | cons y ys =>
      simp only [lexLt] at hab hba
      split at hab
      · simp at hab
      · rename_i h1
        split at hba
        · simp at hba
        · rename_i h2
          have hxy : x = y := le_antisymm (not_lt.mp h2) (not_lt.mp h1)
          subst hxy
          simp only [lt_irrefl, if_neg (lt_irrefl x), if_false] at hab hba
          rw [ih ys hab hba]

theorem strLtB_irrefl (s : String) : strLtB s s = false := lexLt_irrefl s.data

theorem string_data_inj : ∀ a b : String, a.data = b.data → a = b := by
  intro a b h
  cases a
  cases b
  simp at h
  simp [h]

theorem strLtB_trans (a b c : String) :
    strLtB a b = true → strLtB b c = true → strLtB a c = true :=
  lexLt_trans a.data b.data c.data

theorem strLtB_connex (a b : String) :
    strLtB a b = false → strLtB b a = false → a = b := by
  intro h1 h2
  exact string_data_inj a b (lexLt_connex a.data b.data h1 h2)

theorem strLeB_total (a b : String) : strLeB a b || strLeB b a := by
  by_cases h1 : strLtB a b
  · simp [strLeB, h1]
  · by_cases h2 : strLtB b a
    · simp [strLeB, h2]
    · have := strLtB_connex a b (by simpa using h1) (by simpa using h2)
      simp [strLeB, this]

theorem strLeB_trans (a b c : String) :
    strLeB a b = true → strLeB b c = true → strLeB a c = true := by
  intro h1 h2
  simp only [strLeB, Bool.or_eq_true, beq_iff_eq] at h1 h2 ⊢
  rcases h1 with h1 | h1
  · rcases h2 with h2 | h2
    · exact Or.inl (strLtB_trans a b c h1 h2)
    · subst h2; exact Or.inl h1
  · subst h1
    exact h2

theorem strLeB_antisymm (a b : String) :
    strLeB a b = true → strLeB b a = true → a = b := by
  intro h1 h2
  simp only [strLeB, Bool.or_eq_true, beq_iff_eq] at h1 h2
  rcases h1 with h1 | h1
  · rcases h2 with h2 | h2
    · by_cases hab : a = b
      · exact hab
      · exfalso
        have h3 : strLtB b a = false := by
          by_contra hc
          have h4 : strLtB a a = true :=
            strLtB_trans a b a h1 (by simpa using hc)
          rw [strLtB_irrefl] at h4
          simp at h4
        rw [h3] at h2
        simp at h2
    · exact h2.symm
  · exact h1

/-! ## Lemma infrastructure: permutation and pairwise order -/

theorem eq_of_perm_of_pairwise {r : α → α → Prop} :
    ∀ l1 l2 : List α, l1.Perm l2 → l1.Pairwise r → l2.Pairwise r →
      (∀ x, x ∈ l1 → ∀ y, y ∈ l1 → r x y → r y x → x = y) → l1 = l2 := by
  intro l1
  induction l1 with
  | nil =>
    intro l2 hperm _ _ _
    exact hperm.nil_eq
  | cons a t1 ih =>
    intro l2 hperm hp1 hp2 hanti
    cases l2 with
    | nil => exact absurd hperm.symm (by simp)
    | cons b t2 =>
      have hab : a = b := by
        by_contra hne
        have hbmem : b ∈ a :: t1 := hperm.mem_iff.mpr (by simp)
        have hamem : a ∈ b :: t2 := hperm.mem_iff.mp (by simp)
        have hb1 : b ∈ t1 := by
          rcases List.mem_cons.mp hbmem with h | h
          · exact absurd h.symm hne
          · exact h
        have ha2 : a ∈ t2 := by
          rcases List.mem_cons.mp hamem with h | h
          · exact absurd h hne
          · exact h
        have hrab : r a b := (List.pairwise_cons.mp hp1).1 b hb1
        have hrba : r b a := (List.pairwise_cons.mp hp2).1 a ha2
        exact hne (hanti a (by simp) b (by simp [hb1]) hrab hrba)
      subst hab
      have htperm : t1.Perm t2 := hperm.cons_inv
      have ht : t1 = t2 := by
        refine ih t2 htperm (List.pairwise_cons.mp hp1).2 (List.pairwise_cons.mp hp2).2 ?_
        intro x hx y hy
        exact hanti x (by simp [hx]) y (by simp [hy])
      rw [ht]

theorem foldl_invariant {P : β → Prop} (f : β → α → β) :
    ∀ (l : List α) (b : β), (∀ a ∈ l, ∀ b', P b' → P (f b' a)) → P b → P (l.foldl f b) := by
  intro l
  induction l with
  | nil => intro b _ hb; exact hb
  | cons a t ih =>
    intro b hstep hb
    exact ih (f b a) (fun x hx b' hb' => hstep x (by simp [hx]) b' hb')
      (hstep a (by simp) b hb)

/-! ## Lemma infrastructure: first-occurrence dedup -/

theorem keepFirstByAvoid_eq_filter {κ : Type} [DecidableEq κ] (key : α → κ) :
    ∀ (l : List α) (ks : List κ),
      keepFirstByAvoid key ks l =
        keepFirstBy key (l.filter (fun a => decide (key a ∉ ks))) := by
  intro l
  induction l with
  | nil => intro ks; simp [keepFirstByAvoid, keepFirstBy]
  | cons a l ih =>
    intro ks
    by_cases hmem : key a ∈ ks
    · simp [keepFirstByAvoid, hmem, ih ks]
    · simp only [keepFirstByAvoid, if_neg hmem, List.filter_cons,
        decide_eq_true_eq, hmem, not_false_iff, decide_True, if_pos]
      have harm : (List.filter (fun a => decide (key a ∉ ks)) l).filter
          (fun b => decide (key b ≠ key a)) =
          l.filter (fun b => decide (key b ∉ ks ++ [key a])) := by
        rw [List.filter_filter]
        apply List.filter_congr
        intro b _
        simp only [Bool.and_eq_true, decide_eq_true_eq, List.mem_append,
          List.mem_singleton]
        by_cases h1 : key b = key a
        · simp [h1]
        · by_cases h2 : key b ∈ ks
          · simp [h1, h2]
          · simp [h1, h2]
      simp only [keepFirstBy]
      rw [harm, ih (ks ++ [key a])]
      simp

theorem keepFirstBy_eq_avoid {κ : Type} [DecidableEq κ] (key : α → κ) (l : List α) :
    keepFirstByAvoid key [] l = keepFirstBy key l := by
  rw [keepFirstByAvoid_eq_filter]
  congr 1
  apply List.filter_eq_self.mpr
  intro a _
  simp

theorem keepFirstBy_subset_n {κ : Type} [DecidableEq κ] (key : α → κ) :
    ∀ (n : ℕ) (l : List α), l.length ≤ n → ∀ x ∈ keepFirstBy key l, x ∈ l := by
  intro n
  induction n with
  | zero =>
    intro l hl
    have : l = [] := List.length_eq_zero.mp (Nat.le_zero.mp hl)
    subst this
    simp [keepFirstBy]
  | succ n ih =>
    intro l hl x hx
    cases l with
    | nil => simp [keepFirstBy] at hx
    | cons a t =>
      simp only [keepFirstBy, List.mem_cons] at hx
      rcases hx with h | h
      · simp [h]
      · have hlen : (t.filter (fun b => decide (key b ≠ key a))).length ≤ n := by
          have h1 := List.length_filter_le (fun b => decide (key b ≠ key a)) t
          have h2 : t.length ≤ n := Nat.le_of_succ_le_succ hl
          exact le_trans h1 h2
        have := ih _ hlen x h
        have hmem := List.mem_of_mem_filter this
        simp [hmem]

theorem keepFirstBy_subset {κ : Type} [DecidableEq κ] (key : α → κ)
    (l : List α) (x : α) (hx : x ∈ keepFirstBy key l) : x ∈ l :=
  keepFirstBy_subset_n key l.length l (le_refl _) x hx

theorem keepFirstBy_nodup_n {κ : Type} [DecidableEq κ] (key : α → κ) :
    ∀ (n : ℕ) (l : List α), l.length ≤ n →
      ((keepFirstBy key l).map key).Nodup := by
  intro n
  induction n with
  | zero =>
    intro l hl
    have : l = [] := List.length_eq_zero.mp (Nat.le_zero.mp hl)
    subst this
    simp [keepFirstBy]
  | succ n ih =>
    intro l hl
    cases l with
    | nil => simp [keepFirstBy]
    | cons a t =>
      simp only [keepFirstBy, List.map_cons, List.nodup_cons]
      constructor
      · intro hmem
        rcases List.mem_map.mp hmem with ⟨x, hx, hkey⟩
        have := keepFirstBy_subset key _ x hx
        have := List.of_mem_filter this
        simp at this
        exact this hkey
      · apply ih
        have h1 := List.length_filter_le (fun b => decide (key b ≠ key a)) t
        exact le_trans h1 (Nat.le_of_succ_le_succ hl)

theorem keepFirstBy_nodup {κ : Type} [DecidableEq κ] (key : α → κ) (l : List α) :
    ((keepFirstBy key l).map key).Nodup :=
  keepFirstBy_nodup_n key l.length l (le_refl _)

theorem memB_iff {kappa : Type} [DecidableEq kappa] (k : kappa) (ks : List kappa) :
    memB k ks = true ↔ k ∈ ks := by
  simp only [memB, List.any_eq_true, decide_eq_true_eq]
  constructor
  · rintro ⟨x, hx, rfl⟩; exact hx
  · intro h; exact ⟨k, h, rfl⟩

theorem foldDedup_seen {κ : Type} [DecidableEq κ] (key : α → κ) :
    ∀ (l : List α) (ks : List κ) (acc : List α),
      (l.foldl (fun st a => if memB (key a) st.1 then st else (st.1 ++ [key a], st.2 ++ [a]))
        (ks, acc)).2 = acc ++ keepFirstByAvoid key ks l := by
  intro l
  induction l with
  | nil => intro ks acc; simp [keepFirstByAvoid]
  | cons a l ih =>
    intro ks acc
    by_cases hmem : key a ∈ ks
    · have hb : memB (key a) ks = true := (memB_iff _ _).mpr hmem
      simp only [List.foldl_cons, hb, if_pos, keepFirstByAvoid, if_pos hmem, ih]
    · have hb : memB (key a) ks = false := by
        rw [Bool.eq_false_iff]
        intro hc
        exact hmem ((memB_iff _ _).mp hc)
      simp only [List.foldl_cons, hb, Bool.false_eq_true, if_false, keepFirstByAvoid,
        if_neg hmem, ih, List.append_assoc, List.singleton_append]

theorem foldDedup_map {κ : Type} [DecidableEq κ] (key : α → κ) :
    ∀ (l : List α) (m : List (κ × α)),
      ((l.foldl (fun m v => if memB (key v) (m.map Prod.fst) then m else m ++ [(key v, v)]) m).map
        Prod.snd) = m.map Prod.snd ++ keepFirstByAvoid key (m.map Prod.fst) l := by
  intro l
  induction l with
  | nil => intro m; simp [keepFirstByAvoid]
  | cons v l ih =>
    intro m
    by_cases hmem : key v ∈ m.map Prod.fst
    · have hb : memB (key v) (m.map Prod.fst) = true := (memB_iff _ _).mpr hmem
      simp only [List.foldl_cons, hb, if_pos, keepFirstByAvoid, if_pos hmem, ih]
    · have hb : memB (key v) (m.map Prod.fst) = false := by
        rw [Bool.eq_false_iff]
        intro hc
        exact hmem ((memB_iff _ _).mp hc)
      simp only [List.foldl_cons, hb, Bool.false_eq_true, if_false, keepFirstByAvoid]
      rw [ih (m ++ [(key v, v)])]
      simp [keepFirstByAvoid, if_neg hmem, List.append_assoc]

theorem foldl_flatMap (g : β → α → β) (f : γ → List α) :
    ∀ (ds : List γ) (b : β),
      ds.foldl (fun st d => (f d).foldl g st) b = (ds.flatMap f).foldl g b := by
  intro ds
  induction ds with
  | nil => intro b; simp
  | cons d ds ih =>
    intro b
    simp only [List.foldl_cons, List.flatMap_cons, List.foldl_append]
    exact ih _

/-! ## Structural equations for the aggregation folds -/

theorem import_components_eq (docs : List JVal) :
    import_components docs = keepFirstBy compKey3 (docs.flatMap docComponents) := by
  have h0 : import_components docs =
      ((docs.flatMap docComponents).foldl
        (fun st c => if memB (compKey3 c) st.1 then st else (st.1 ++ [compKey3 c], st.2 ++ [c]))
        ([], [])).2 := by
    unfold import_components
    rw [foldl_flatMap]
  have h1 := foldDedup_seen compKey3 (docs.flatMap docComponents) [] []
  have h2 := keepFirstBy_eq_avoid compKey3 (docs.flatMap docComponents)
  exact h0.trans (h1.trans (by rw [List.nil_append, h2]))

theorem dedup_vulns_eq (vs : List Jobj) :
    dedup_vulns vs = keepFirstBy vulnKey vs := by
  have h1 := foldDedup_map vulnKey vs []
  have h2 := keepFirstBy_eq_avoid vulnKey vs
  calc dedup_vulns vs
      = ((vs.foldl (fun m v =>
          if memB (vulnKey v) (m.map Prod.fst) then m else m ++ [(vulnKey v, v)]) []).map
          Prod.snd) := rfl
    _ = ([] : List ((JVal × List JVal) × Jobj)).map Prod.snd ++
          keepFirstByAvoid vulnKey (([] : List ((JVal × List JVal) × Jobj)).map Prod.fst) vs := h1
    _ = keepFirstBy vulnKey vs := by simpa using h2

theorem parse_requirements_foldl :
    ∀ (lines : List String) (acc : List Jobj),
      lines.foldl (fun deps rawLine =>
        let line := pyStrip rawLine
        if keepLine line then deps ++ [lineComp line] else deps) acc
      = acc ++ ((lines.map pyStrip).filter keepLine).map lineComp := by
  intro lines
  induction lines with
  | nil => intro acc; simp
  | cons l ls ih =>
    intro acc
    simp only [List.foldl_cons, List.map_cons, List.filter_cons]
    by_cases h : keepLine (pyStrip l)
    · simp [h, ih]
    · simp [h, ih]

theorem stringMk_ne_empty (l : List Char) (hl : l ≠ []) : String.mk l ≠ "" := by
  intro h
  apply hl
  have h2 : (String.mk l).data = ("" : String).data := by rw [h]
  exact h2

theorem pinMatch_version_nonempty (l n v : String) (h : pinMatch l = some (n, v)) :
    v ≠ "" := by
  simp only [pinMatch] at h
  split at h
  · split at h
    · rename_i hcond
      simp only [Bool.and_eq_true, decide_eq_true_eq] at hcond
      simp only [Option.some.injEq, Prod.mk.injEq] at h
      rw [← h.2]
      exact stringMk_ne_empty _ hcond.1.2
    · simp at h
  · simp at h

/-! ## Concrete inputs used by counterexamples and witnesses -/

/-- Helper list lemma: a list has length zero exactly when it is nil. -/
theorem decide_length_eq_nil (l : List String) :
    decide (l.length = 0) = decide (l = []) := by
  cases l with
  | nil => simp
  | cons a t => simp

/-- Helper: looking a key up in (sev or empty-dict) equals looking it up
in sev directly, because every falsy value already defaults. -/
theorem jget_pyOr_empty (b : JVal) (k : String) :
    jget (pyOr b (mkObj [])) k .null = jget b k .null := by
  unfold pyOr
  by_cases h : truthy b
  · rw [if_pos h]
  · rw [if_neg h]
    cases b with
    | null => rfl
    | bool bb => rfl
    | num q => rfl
    | str s => rfl
    | arr xs => rfl
    | obj kvs =>
      cases kvs with
      | onil => rfl
      | ocons k0 v0 t => simp [truthy] at h

/-- C7: for every dependency-pin input the reader emits exactly one
record per non-blank, non-comment line and never fails on a line: the
output is exactly the per-line map over the kept stripped lines, a line
matching the name==version pattern yields that name, a non-empty
version, and type python, and every other kept line yields the literal
line text as name with an empty version (the totality of
parse_requirements in the model reflects that no line can raise). -/
theorem claim_C7 (lines : List String) :
    parse_requirements lines = ((lines.map pyStrip).filter keepLine).map lineComp ∧
    (∀ l n v, pinMatch l = some (n, v) → lineComp l = pinComp n v ∧ v ≠ "") ∧
    (∀ l, pinMatch l = none → lineComp l = bareComp l) := by
  refine ⟨?_, ?_, ?_⟩
  · have h := parse_requirements_foldl lines []
    exact h.trans (by rw [List.nil_append])
  · intro l n v h
    refine ⟨?_, pinMatch_version_nonempty l n v h⟩
    simp [lineComp, h]
  · intro l h
    simp [lineComp, h]

/-- Witness for C7 at a concrete pin file. -/
theorem claim_C7_witness :
    parse_requirements ["numpy==1.26.4", " ", "# note", "uvicorn"] =
      [pinComp "numpy" "1.26.4", bareComp "uvicorn"] ∧
    lineComp "numpy==1.26.4" = pinComp "numpy" "1.26.4" ∧ ("1.26.4" : String) ≠ "" := by
  have h := claim_C7 ["numpy==1.26.4", " ", "# note", "uvicorn"]
  refine ⟨?_, h.2.1 "numpy==1.26.4" "numpy" "1.26.4" (by decide)⟩
  rw [h.1]
  decide

/-- C8: for every input value the shallow validator returns a pass flag
that is true exactly when the error list is empty (and, being a total
function, never raises); on the array 1,2,3 it returns the single
root-shape error, and on an object with empty metadata object and empty
components array it passes with no errors. -/
theorem claim_C8 :
    (∀ a : JVal, (validate_aibom a).1 = decide ((validate_aibom a).2 = [])) ∧
    validate_aibom (mkArr [.num 1, .num 2, .num 3]) =
      (false, ["AIBOM must be a JSON object"]) ∧
    validate_aibom (mkObj [("metadata", mkObj []), ("components", mkArr [])]) =
      (true, []) := by
  refine ⟨?_, by decide, by decide⟩
  intro a
  unfold validate_aibom
  split
  · simp
  · exact decide_length_eq_nil _

/-- C10: the imported-SBOM reader resolves a vulnerability identifier by
falling through id, then bom-ref, then name, treating the empty string
(and every falsy value) as absent: an empty-string id defers to bom-ref
or name, the id can be null only when all three fields are falsy, and
the normalized record's id field is exactly this resolution. -/
theorem claim_C10 (v : JVal) :
    (jget v "id" .null = .str "" →
      resolveVid v = pyOr (jget v "bom-ref" .null) (jget v "name" .null)) ∧
    (resolveVid v = .null →
      truthy (jget v "id" .null) = false ∧ truthy (jget v "bom-ref" .null) = false ∧
        truthy (jget v "name" .null) = false) ∧
    jgetL (normVuln v) "id" .null = resolveVid v := by
  refine ⟨?_, ?_, ?_⟩
  · intro h
    unfold resolveVid
    rw [h]
    simp [pyOr, truthy]
  · intro h
    unfold resolveVid pyOr at h
    by_cases h1 : truthy (jget v "id" .null)
    · rw [if_pos h1] at h
      rw [h] at h1
      simp [truthy] at h1
    · rw [if_neg h1] at h
      by_cases h2 : truthy (jget v "bom-ref" .null)
      · rw [if_pos h2] at h
        rw [h] at h2
        simp [truthy] at h2
      · rw [if_neg h2] at h
        refine ⟨by simpa using h1, by simpa using h2, by rw [h]; rfl⟩
  · rfl

/-- Witness for C10: an empty-string id defers to the bom-ref, and a
record with no identifying fields resolves to a null id with a falsy id
field. -/
theorem claim_C10_witness :
    resolveVid (mkObj [("id", .str ""), ("bom-ref", .str "B")]) =
      pyOr (jget (mkObj [("id", .str ""), ("bom-ref", .str "B")]) "bom-ref" .null)
        (jget (mkObj [("id", .str ""), ("bom-ref", .str "B")]) "name" .null) ∧
    truthy (jget (mkObj ([] : Jobj)) "id" .null) = false := by
  constructor
  · exact (claim_C10 (mkObj [("id", .str ""), ("bom-ref", .str "B")])).1 (by decide)
  · exact ((claim_C10 (mkObj ([] : Jobj))).2.1 (by decide)).1

/-- C1 counterexample: two documents each contributing a component named
a of type library, differing only in version; the aggregation keeps
both records (the later document is not discarded), so version is part
of the identity key at this stage, contrary to the claim. -/
theorem claim_C1_ce :
    (import_components [ceDoc1, ceDoc2]).map
        (fun c => (jgetL c "name" .null, jgetL c "type" .null, jgetL c "version" .null)) =
      [(.str "a", .str "library", .str "1"), (.str "a", .str "library", .str "2")] := by
  decide

/-- C1 (amended): when aggregating imported SBOM documents the identity
key is (name, version, type) - version included; the first occurrence
across the concatenated documents wins and later components with an
already-seen key are discarded entirely; two records differing only in
version therefore stay distinct at this stage. -/
theorem claim_C1_amended (docs : List JVal) :
    import_components docs = keepFirstBy compKey3 (docs.flatMap docComponents) ∧
    ((import_components docs).map compKey3).Nodup := by
  refine ⟨import_components_eq docs, ?_⟩
  rw [import_components_eq docs]
  exact keepFirstBy_nodup compKey3 _

/-! ## String-valued JSON values and ordered affects lists -/

theorem refLeB_total_str (x y : JVal) (hx : isStrV x) (hy : isStrV y) :
    refLeB x y || refLeB y x := by
  obtain ⟨a, rfl⟩ := hx
  obtain ⟨b, rfl⟩ := hy
  simpa [refLeB] using strLeB_total a b

theorem refLeB_trans_str (x y z : JVal) (hx : isStrV x) (hy : isStrV y) (hz : isStrV z)
    (h1 : refLeB x y = true) (h2 : refLeB y z = true) : refLeB x z = true := by
  obtain ⟨a, rfl⟩ := hx
  obtain ⟨b, rfl⟩ := hy
  obtain ⟨c, rfl⟩ := hz
  simp only [refLeB] at h1 h2 ⊢
  exact strLeB_trans a b c h1 h2

theorem refLeB_antisymm_str (x y : JVal) (hx : isStrV x) (hy : isStrV y)
    (h1 : refLeB x y = true) (h2 : refLeB y x = true) : x = y := by
  obtain ⟨a, rfl⟩ := hx
  obtain ⟨b, rfl⟩ := hy
  simp only [refLeB] at h1 h2
  rw [strLeB_antisymm a b h1 h2]

theorem stableSort_perm_eq_of_str (l1 l2 : List JVal)
    (h1 : ∀ x ∈ l1, isStrV x) (hperm : l1.Perm l2) :
    stableSort refLeB l1 = stableSort refLeB l2 := by
  have h2 : ∀ x ∈ l2, isStrV x := fun x hx => h1 x (hperm.mem_iff.mpr hx)
  have hp1 := pairwise_stableSort refLeB isStrV refLeB_total_str
    refLeB_trans_str l1 h1
  have hp2 := pairwise_stableSort refLeB isStrV refLeB_total_str
    refLeB_trans_str l2 h2
  refine eq_of_perm_of_pairwise _ _
    ((stableSort_perm _ l1).trans (hperm.trans (stableSort_perm _ l2).symm)) hp1 hp2 ?_
  intro x hx y hy hxy hyx
  have hsx := h1 x ((mem_stableSort _ _ _).mp hx)
  have hsy := h1 y ((mem_stableSort _ _ _).mp hy)
  exact refLeB_antisymm_str x y hsx hsy hxy hyx

/-- C6 counterexample: one imported document with two vulnerability
entries sharing id CVE-1, the first affecting ref a listed twice, the
second affecting ref a listed once. Both survive deduplication, and the
two surviving entries have the same id and the same affected set, so
the identity key is not a set: the sorted affects tuple keeps
multiplicity. -/
theorem claim_C6_ce :
    ((import_cyclonedx_sbom [ceVulnDoc]).2.map (fun v => jgetL v "id" .null) =
      [.str "CVE-1", .str "CVE-1"]) ∧
    ((import_cyclonedx_sbom [ceVulnDoc]).2.map
        (fun v => (asItems (jgetL v "affects" .null)).dedup) =
      [[.str "a"], [.str "a"]]) ∧
    ((import_cyclonedx_sbom [ceVulnDoc]).2.map
        (fun v => asItems (jgetL v "affects" .null)) =
      [[.str "a", .str "a"], [.str "a"]]) := by
  decide

/-- C6 (amended): the vulnerability identity key is (id, sorted affects
list) - order-independent but multiplicity-sensitive. Deduplication
keeps the first occurrence per key, no two output entries share a key,
and two records whose ids agree and whose (string) affects lists are
permutations of each other receive the same key. -/
theorem claim_C6_amended (vs : List Jobj) :
    dedup_vulns vs = keepFirstBy vulnKey vs ∧
    ((dedup_vulns vs).map vulnKey).Nodup ∧
    (∀ v w : Jobj, jgetL v "id" .null = jgetL w "id" .null →
      (∀ x ∈ asItems (pyOr (jgetL v "affects" .null) (mkArr [])), isStrV x) →
      (asItems (pyOr (jgetL v "affects" .null) (mkArr []))).Perm
        (asItems (pyOr (jgetL w "affects" .null) (mkArr []))) →
      vulnKey v = vulnKey w) := by
  refine ⟨dedup_vulns_eq vs, ?_, ?_⟩
  · rw [dedup_vulns_eq vs]
    exact keepFirstBy_nodup vulnKey vs
  · intro v w hid hstr hperm
    unfold vulnKey sortedAffects
    rw [hid, stableSort_perm_eq_of_str _ _ hstr hperm]

/-- Witness for C6 (amended): two records with equal ids whose affects
lists are reorderings of each other get the same deduplication key. -/
theorem claim_C6_witness :
    vulnKey [("id", .str "V"), ("affects", mkArr [.str "x", .str "y"])] =
      vulnKey [("id", .str "V"), ("affects", mkArr [.str "y", .str "x"])] := by
  refine (claim_C6_amended []).2.2 _ _ (by decide) ?_ ?_
  · intro x hx
    rw [show asItems (pyOr (jgetL [("id", JVal.str "V"),
        ("affects", mkArr [JVal.str "x", JVal.str "y"])] "affects" JVal.null) (mkArr [])) =
        [JVal.str "x", JVal.str "y"] from by decide] at hx
    simp only [List.mem_cons, List.not_mem_nil, or_false] at hx
    rcases hx with h | h
    · exact ⟨"x", h⟩
    · exact ⟨"y", h⟩
  · decide

/-! ## C5: severity selection -/

theorem ratingGeB_eq_decide (x y : JVal) (hx : (toNumQ (scoreOf x)).isSome = true)
    (hy : (toNumQ (scoreOf y)).isSome = true) :
    ratingGeB x y = decide (scoreQ y ≤ scoreQ x) := by
  unfold ratingGeB scoreQ
  obtain ⟨a, ha⟩ := Option.isSome_iff_exists.mp hx
  obtain ⟨b, hb⟩ := Option.isSome_iff_exists.mp hy
  rw [ha, hb]
  simp

/-- C5: for every vulnerability entry with a non-empty ratings array
(restricted to dict-shaped ratings with numeric scores, where Python
cannot raise), the emitted severity and score come from the rating with
the numerically highest score, a rating lacking a score counting as 0,
and among ratings tied for the highest score the earliest in the
original array order is chosen: the ratings split as l1, best, l2 with
every earlier rating strictly below best and every later one at most
best. -/
theorem claim_C5 (v : JVal)
    (_hiter : iterOk (jget v "ratings" .null) = true)
    (_hobj : ∀ r ∈ ratingsOf v, isObj r = true)
    (hnum : ∀ r ∈ ratingsOf v, (toNumQ (scoreOf r)).isSome = true)
    (hne : ratingsOf v ≠ []) :
    ∃ l1 best l2, ratingsOf v = l1 ++ best :: l2 ∧
      (∀ x ∈ l1, scoreQ x < scoreQ best) ∧
      (∀ x ∈ l2, scoreQ x ≤ scoreQ best) ∧
      jgetL (normVuln v) "severity" .null = jget best "severity" .null ∧
      jgetL (normVuln v) "score" .null = jget best "score" .null := by
  have hsne : stableSort ratingGeB (ratingsOf v) ≠ [] := by
    intro h
    exact hne ((stableSort_eq_nil_iff _ _).mp h)
  obtain ⟨b, t, hsplit⟩ : ∃ b t, stableSort ratingGeB (ratingsOf v) = b :: t := by
    cases h : stableSort ratingGeB (ratingsOf v) with
    | nil => exact absurd h hsne
    | cons b t => exact ⟨b, t, rfl⟩
  have hfm : firstMaxBy ratingGeB (ratingsOf v) = some b := by
    have hh := head?_stableSort ratingGeB (ratingsOf v)
    rw [hsplit] at hh
    exact hh.symm
  have hk : ∀ x ∈ ratingsOf v, ∀ y ∈ ratingsOf v,
      ratingGeB x y = decide (scoreQ y ≤ scoreQ x) := by
    intro x hx y hy
    exact ratingGeB_eq_decide x y (hnum x hx) (hnum y hy)
  obtain ⟨l1, l2, hdec, h1, h2⟩ := firstMaxBy_argmax ratingGeB scoreQ (ratingsOf v) hk b hfm
  have hbest : bestRating v = b := by
    unfold bestRating
    rw [hsplit]
  refine ⟨l1, b, l2, hdec, h1, h2, ?_, ?_⟩
  · have e1 : jgetL (normVuln v) "severity" .null =
        jget (pyOr (bestRating v) (mkObj [])) "severity" .null := rfl
    rw [e1, jget_pyOr_empty, hbest]
  · have e2 : jgetL (normVuln v) "score" .null =
        jget (pyOr (bestRating v) (mkObj [])) "score" .null := rfl
    rw [e2, jget_pyOr_empty, hbest]

/-- Witness for C5 at a four-rating entry with a top-score tie. -/
theorem claim_C5_witness :
    (ratingsOf v5c ≠ []) ∧
    (∃ l1 best l2, ratingsOf v5c = l1 ++ best :: l2 ∧
      (∀ x ∈ l1, scoreQ x < scoreQ best) ∧
      (∀ x ∈ l2, scoreQ x ≤ scoreQ best) ∧
      jgetL (normVuln v5c) "severity" .null = jget best "severity" .null ∧
      jgetL (normVuln v5c) "score" .null = jget best "score" .null) :=
  ⟨by decide, claim_C5 v5c (by decide) (by decide) (by decide) (by decide)⟩

/-! ## Lemma infrastructure: dict lookups through union and filter -/

theorem jgetL_default_of_not_hasKey (d : Jobj) (k : String) (dflt : JVal)
    (h : hasKeyL d k = false) : jgetL d k dflt = dflt := by
  induction d with
  | nil => rfl
  | cons kv t ih =>
    simp only [hasKeyL, Bool.or_eq_false_iff] at h
    simp only [jgetL, h.1, Bool.false_eq_true, if_false]
    exact ih h.2

theorem jgetL_append (d1 d2 : Jobj) (k : String) (dflt : JVal) :
    jgetL (d1 ++ d2) k dflt =
      if hasKeyL d1 k then jgetL d1 k dflt else jgetL d2 k dflt := by
  induction d1 with
  | nil => simp [hasKeyL, jgetL]
  | cons kv t ih =>
    by_cases h : kv.1 == k
    · simp [jgetL, hasKeyL, h]
    · simp only [List.cons_append, jgetL, hasKeyL, h, Bool.false_eq_true, if_false,
        Bool.false_or]
      exact ih

theorem hasKeyL_append (d1 d2 : Jobj) (k : String) :
    hasKeyL (d1 ++ d2) k = (hasKeyL d1 k || hasKeyL d2 k) := by
  induction d1 with
  | nil => simp [hasKeyL]
  | cons kv t ih =>
    simp only [List.cons_append, hasKeyL, List.append_eq, ih, Bool.or_assoc]

theorem hasKeyL_filter_false (d : Jobj) (q : String × JVal → Bool) (k : String)
    (h : hasKeyL d k = false) : hasKeyL (d.filter q) k = false := by
  induction d with
  | nil => rfl
  | cons kv t ih =>
    simp only [hasKeyL, Bool.or_eq_false_iff] at h
    rw [List.filter_cons]
    by_cases hq : q kv
    · simp only [hq, if_pos, hasKeyL, h.1, Bool.false_or]
      exact ih h.2
    · simp only [hq, Bool.false_eq_true, if_false]
      exact ih h.2

theorem jgetL_dflt_irrel (d : Jobj) (k : String) (d1 d2 : JVal)
    (h : hasKeyL d k = true) : jgetL d k d1 = jgetL d k d2 := by
  induction d with
  | nil => simp [hasKeyL] at h
  | cons kv t ih =>
    by_cases hk : kv.1 == k
    · simp [jgetL, hk]
    · simp only [hasKeyL, hk, Bool.false_or] at h
      simp only [jgetL, hk, Bool.false_eq_true, if_false]
      exact ih h

theorem hasKeyL_dunion_left (a b : Jobj) (k : String) :
    hasKeyL (a.map (fun kv => (kv.1, jgetL b kv.1 kv.2))) k = hasKeyL a k := by
  induction a with
  | nil => rfl
  | cons kv t ih =>
    simp only [List.map_cons, hasKeyL, ih]

theorem jgetL_dunion_mapped (a b : Jobj) (k : String) (dflt : JVal)
    (ha : hasKeyL a k = true) :
    jgetL (a.map (fun kv => (kv.1, jgetL b kv.1 kv.2))) k dflt =
      if hasKeyL b k then jgetL b k dflt else jgetL a k dflt := by
  induction a with
  | nil => simp [hasKeyL] at ha
  | cons kv t ih =>
    by_cases hk : kv.1 == k
    · have hk' : kv.1 = k := by simpa using hk
      simp only [List.map_cons, jgetL, hk', beq_self_eq_true, if_pos]
      by_cases hb : hasKeyL b k
      · simp only [hb, if_pos]
        exact jgetL_dflt_irrel b k kv.2 dflt hb
      · simp only [hb, Bool.false_eq_true, if_false]
        exact jgetL_default_of_not_hasKey b k kv.2 (by simpa using hb)
    · simp only [hasKeyL, hk, Bool.false_or] at ha
      simp only [List.map_cons, jgetL, hk, Bool.false_eq_true, if_false]
      exact ih ha

theorem jgetL_filter_notin_a (a b : Jobj) (k : String) (dflt : JVal)
    (ha : hasKeyL a k = false) :
    jgetL (b.filter (fun kv => !(hasKeyL a kv.1))) k dflt = jgetL b k dflt := by
  induction b with
  | nil => rfl
  | cons kv t ih =>
    by_cases hk : kv.1 == k
    · have hk' : kv.1 = k := by simpa using hk
      have hkeep : (!(hasKeyL a kv.1)) = true := by
        rw [hk', ha]
        rfl
      rw [List.filter_cons, if_pos hkeep]
      simp [jgetL, hk]
    · rw [List.filter_cons]
      by_cases hkeep : (!(hasKeyL a kv.1)) = true
      · rw [if_pos hkeep]
        simp only [jgetL, hk, Bool.false_eq_true, if_false]
        exact ih
      · rw [if_neg hkeep]
        simp only [jgetL, hk, Bool.false_eq_true, if_false] at ih ⊢
        exact ih

/-- Lookup through a Python dict union: the right dict wins on every key
it has, the left dict answers otherwise. -/
theorem jgetL_dunion (a b : Jobj) (k : String) (dflt : JVal) :
    jgetL (dunion a b) k dflt =
      if hasKeyL b k then jgetL b k dflt else jgetL a k dflt := by
  unfold dunion
  rw [jgetL_append, hasKeyL_dunion_left]
  by_cases ha : hasKeyL a k
  · rw [if_pos ha, jgetL_dunion_mapped a b k dflt ha]
  · rw [if_neg ha]
    rw [jgetL_filter_notin_a a b k dflt (by simpa using ha)]
    by_cases hb : hasKeyL b k
    · rw [if_pos hb]
    · rw [if_neg hb, jgetL_default_of_not_hasKey b k dflt (by simpa using hb),
        jgetL_default_of_not_hasKey a k dflt (by simpa using ha)]

/-! ## Field-level merge rule (prefer-imported update) -/

theorem hasKeyL_iff_mem (d : Jobj) (k : String) :
    hasKeyL d k = true ↔ k ∈ d.map Prod.fst := by
  induction d with
  | nil => simp [hasKeyL]
  | cons kv t ih =>
    simp only [hasKeyL, Bool.or_eq_true, List.map_cons, List.mem_cons, ih, beq_iff_eq]
    constructor
    · rintro (h | h)
      · exact Or.inl h.symm
      · exact Or.inr h
    · rintro (h | h)
      · exact Or.inl h.symm
      · exact Or.inr h

theorem hasKeyL_nonEmptyItems (c : Jobj) (k : String)
    (hnd : (c.map Prod.fst).Nodup) :
    hasKeyL (nonEmptyItems c) k = keepsField c k := by
  induction c with
  | nil => rfl
  | cons kv t ih =>
    simp only [List.map_cons, List.nodup_cons] at hnd
    by_cases hk : kv.1 == k
    · have hk' : kv.1 = k := by simpa using hk
      have hnt : hasKeyL t k = false := by
        rw [Bool.eq_false_iff]
        intro hc
        exact hnd.1 (hk' ▸ (hasKeyL_iff_mem t k).mp hc)
      unfold nonEmptyItems keepsField
      rw [List.filter_cons]
      by_cases hp : (!(kv.2 == JVal.null) && !(kv.2 == JVal.str "")) = true
      · rw [if_pos hp]
        simp [hasKeyL, jgetL, hk, hp]
      · rw [if_neg hp]
        have : hasKeyL (nonEmptyItems t) k = false :=
          hasKeyL_filter_false t _ k hnt
        unfold nonEmptyItems at this
        rw [this]
        simp only [hasKeyL, jgetL, hk, Bool.true_or, if_pos, Bool.true_and]
        cases h2 : (!(kv.2 == JVal.null) && !(kv.2 == JVal.str "")) with
        | true => exact absurd h2 hp
        | false => rfl
    · unfold nonEmptyItems keepsField
      rw [List.filter_cons]
      have step : hasKeyL (List.filter (fun kv => !(kv.2 == JVal.null) &&
          !(kv.2 == JVal.str "")) t) k = keepsField t k := ih hnd.2
      by_cases hp : (!(kv.2 == JVal.null) && !(kv.2 == JVal.str "")) = true
      · rw [if_pos hp]
        unfold keepsField at step
        simp only [hasKeyL, jgetL, hk, Bool.false_eq_true, if_false, Bool.false_or]
        exact step
      · rw [if_neg hp]
        unfold keepsField at step
        simp only [hasKeyL, jgetL, hk, Bool.false_eq_true, if_false, Bool.false_or]
        exact step

theorem jgetL_nonEmptyItems (c : Jobj) (k : String) (dflt : JVal)
    (hnd : (c.map Prod.fst).Nodup) (h : keepsField c k = true) :
    jgetL (nonEmptyItems c) k dflt = jgetL c k dflt := by
  induction c with
  | nil => simp [keepsField, hasKeyL] at h
  | cons kv t ih =>
    simp only [List.map_cons, List.nodup_cons] at hnd
    by_cases hk : kv.1 == k
    · have hk' : kv.1 = k := by simpa using hk
      have hv : jgetL (kv :: t) k JVal.null = kv.2 := by simp [jgetL, hk]
      have hp : (!(kv.2 == JVal.null) && !(kv.2 == JVal.str "")) = true := by
        unfold keepsField at h
        rw [hv] at h
        simp only [Bool.and_eq_true] at h
        simp [h.2.1, h.2.2]
      unfold nonEmptyItems
      rw [List.filter_cons, if_pos hp]
      simp [jgetL, hk]
    · have hstep : keepsField t k = true := by
        unfold keepsField at h ⊢
        simpa [hasKeyL, jgetL, hk] using h
      unfold nonEmptyItems
      rw [List.filter_cons]
      by_cases hp : (!(kv.2 == JVal.null) && !(kv.2 == JVal.str "")) = true
      · rw [if_pos hp]
        simp only [jgetL, hk, Bool.false_eq_true, if_false]
        exact ih hnd.2 hstep
      · rw [if_neg hp]
        simp only [jgetL, hk, Bool.false_eq_true, if_false]
        exact ih hnd.2 hstep

/-- The field-by-field rule of the prefer-imported update: a field the
imported record supplies with a non-null, non-empty value wins; every
other field keeps the existing record's value. -/
theorem jgetL_pyUpdate (old c : Jobj) (k : String) (dflt : JVal)
    (hnd : (c.map Prod.fst).Nodup) :
    jgetL (pyUpdate old c) k dflt =
      if keepsField c k then jgetL c k dflt else jgetL old k dflt := by
  unfold pyUpdate
  rw [jgetL_dunion, hasKeyL_nonEmptyItems c k hnd]
  by_cases h : keepsField c k
  · rw [if_pos h, if_pos h, jgetL_nonEmptyItems c k dflt hnd h]
  · rw [if_neg h, if_neg h]

theorem compKey_pyUpdate (old c : Jobj) (hnd : (c.map Prod.fst).Nodup)
    (hold : compKey old = compKey c) :
    compKey (pyUpdate old c) = compKey c := by
  unfold compKey at hold ⊢
  rw [Prod.mk.injEq] at hold
  rw [jgetL_pyUpdate old c "name" (.str "") hnd, jgetL_pyUpdate old c "type" (.str "") hnd]
  by_cases k1 : keepsField c "name" <;> by_cases k2 : keepsField c "type" <;>
    simp [k1, k2, hold.1, hold.2]

/-- C4: when prefer-imported is true and an imported component's
(name, type) key matches an existing record, the existing record is
updated field-by-field: every field the imported record supplies with a
non-null, non-empty value overwrites (including conflicts), and fields
the imported record leaves null or empty keep the existing value; in
particular a primary x-library record with empty version merged with an
imported one carrying version 2.0 yields version 2.0. -/
theorem claim_C4 :
    (∀ old c : Jobj, (c.map Prod.fst).Nodup → ∀ (k : String) (dflt : JVal),
      jgetL (pyUpdate old c) k dflt =
        if keepsField c k then jgetL c k dflt else jgetL old k dflt) ∧
    merge_components [[("name", .str "x"), ("type", .str "library"), ("version", .str "")]]
      [[("name", .str "x"), ("type", .str "library"), ("version", .str "2.0")]] true =
      [[("name", .str "x"), ("type", .str "library"), ("version", .str "2.0")]] :=
  ⟨fun old c hnd k dflt => jgetL_pyUpdate old c k dflt hnd, by decide⟩

/-- Witness for C4: the update rule evaluated at two concrete records -
a non-empty imported version wins, an empty imported version loses. -/
theorem claim_C4_witness :
    jgetL (pyUpdate [("name", JVal.str "x"), ("type", JVal.str "library"),
        ("version", JVal.str "")]
      [("name", JVal.str "x"), ("type", JVal.str "library"), ("version", JVal.str "2.0")])
      "version" JVal.null = JVal.str "2.0" ∧
    jgetL (pyUpdate [("version", JVal.str "1.0")] [("version", JVal.str "")])
      "version" JVal.null = JVal.str "1.0" := by
  constructor
  · rw [claim_C4.1 _ _ (by decide) "version" JVal.null]
    decide
  · rw [claim_C4.1 _ _ (by decide) "version" JVal.null]
    decide

/-! ## Lemma infrastructure: the by_key mapping of the merge engine -/

theorem map_fst_update (m : List ((JVal × JVal) × Jobj)) (k : JVal × JVal) (v : Jobj) :
    (m.map (fun kv => if kv.1 = k then (k, v) else kv)).map Prod.fst = m.map Prod.fst := by
  induction m with
  | nil => rfl
  | cons kv t ih =>
    simp only [List.map_cons, ih]
    by_cases h : kv.1 = k
    · simp [h]
    · simp [h]

theorem upsert_keys_mem (m : List ((JVal × JVal) × Jobj)) (k : JVal × JVal) (v : Jobj)
    (h : memB k (m.map Prod.fst) = true) :
    (upsert m k v).map Prod.fst = m.map Prod.fst := by
  unfold upsert
  rw [if_pos h, map_fst_update]

theorem upsert_keys_not_mem (m : List ((JVal × JVal) × Jobj)) (k : JVal × JVal) (v : Jobj)
    (h : memB k (m.map Prod.fst) = false) :
    (upsert m k v).map Prod.fst = m.map Prod.fst ++ [k] := by
  unfold upsert
  rw [h]
  simp

theorem upsert_values (m : List ((JVal × JVal) × Jobj)) (k : JVal × JVal) (v : Jobj)
    (P : Jobj → Prop) (hm : ∀ kv ∈ m, P kv.2) (hv : P v) :
    ∀ kv ∈ upsert m k v, P kv.2 := by
  unfold upsert
  split
  · intro kv hkv
    obtain ⟨kv0, hkv0, heq⟩ := List.mem_map.mp hkv
    by_cases h : kv0.1 = k
    · rw [if_pos h] at heq
      rw [← heq]
      exact hv
    · rw [if_neg h] at heq
      rw [← heq]
      exact hm kv0 hkv0
  · intro kv hkv
    rcases List.mem_append.mp hkv with h | h
    · exact hm kv h
    · rw [List.mem_singleton.mp h]
      exact hv

theorem upsert_keyconsistent (m : List ((JVal × JVal) × Jobj)) (k : JVal × JVal) (v : Jobj)
    (h1 : ∀ kv ∈ m, compKey kv.2 = kv.1) (h2 : compKey v = k) :
    ∀ kv ∈ upsert m k v, compKey kv.2 = kv.1 := by
  unfold upsert
  split
  · intro kv hkv
    obtain ⟨kv0, hkv0, heq⟩ := List.mem_map.mp hkv
    by_cases h : kv0.1 = k
    · rw [if_pos h] at heq
      rw [← heq]
      exact h2
    · rw [if_neg h] at heq
      rw [← heq]
      exact h1 kv0 hkv0
  · intro kv hkv
    rcases List.mem_append.mp hkv with h | h
    · exact h1 kv h
    · rw [List.mem_singleton.mp h]
      exact h2

theorem upsert_keys_nodup (m : List ((JVal × JVal) × Jobj)) (k : JVal × JVal) (v : Jobj)
    (h : (m.map Prod.fst).Nodup) : ((upsert m k v).map Prod.fst).Nodup := by
  by_cases hm : memB k (m.map Prod.fst) = true
  · rw [upsert_keys_mem m k v hm]
    exact h
  · rw [upsert_keys_not_mem m k v (by simpa using hm)]
    refine List.Nodup.append h (by simp) ?_
    intro a ha hb
    rw [List.mem_singleton.mp hb] at ha
    exact hm ((memB_iff k (m.map Prod.fst)).mpr ha)

theorem upsert_keys_superset (m : List ((JVal × JVal) × Jobj)) (k k0 : JVal × JVal)
    (v : Jobj) (h : k0 ∈ m.map Prod.fst) : k0 ∈ (upsert m k v).map Prod.fst := by
  by_cases hm : memB k (m.map Prod.fst) = true
  · rw [upsert_keys_mem m k v hm]
    exact h
  · rw [upsert_keys_not_mem m k v (by simpa using hm)]
    exact List.mem_append_left _ h

theorem find?_key_some {m : List ((JVal × JVal) × Jobj)} {key : JVal × JVal}
    {kv0 : (JVal × JVal) × Jobj}
    (h : m.find? (fun kv => decide (kv.1 = key)) = some kv0) : kv0 ∈ m ∧ kv0.1 = key :=
  ⟨List.mem_of_find?_eq_some h, by simpa using List.find?_some h⟩

theorem mergeStep_eq (pref : Bool) (m : List ((JVal × JVal) × Jobj)) (c : Jobj) :
    mergeStep pref m c =
      match m.find? (fun kv => decide (kv.1 = compKey c)) with
      | some kv => if pref then upsert m (compKey c) (pyUpdate kv.2 c) else m
      | none => m ++ [(compKey c, c)] := rfl

theorem mergeStep_keyconsistent (pref : Bool) (m : List ((JVal × JVal) × Jobj)) (c : Jobj)
    (hnd : (c.map Prod.fst).Nodup) (h1 : ∀ kv ∈ m, compKey kv.2 = kv.1) :
    ∀ kv ∈ mergeStep pref m c, compKey kv.2 = kv.1 := by
  rw [mergeStep_eq]
  cases hf : m.find? (fun kv => decide (kv.1 = compKey c)) with
  | some kv0 =>
    obtain ⟨hmem, hkey⟩ := find?_key_some hf
    show ∀ kv ∈ (if pref then upsert m (compKey c) (pyUpdate kv0.2 c) else m),
      compKey kv.2 = kv.1
    by_cases hp : pref
    · rw [if_pos hp]
      refine upsert_keyconsistent m (compKey c) (pyUpdate kv0.2 c) h1 ?_
      exact compKey_pyUpdate kv0.2 c hnd ((h1 kv0 hmem).trans hkey)
    · rw [if_neg hp]
      exact h1
  | none =>
    show ∀ kv ∈ m ++ [(compKey c, c)], compKey kv.2 = kv.1
    intro kv hkv
    rcases List.mem_append.mp hkv with h | h
    · exact h1 kv h
    · rw [List.mem_singleton.mp h]

theorem mergeStep_keys_nodup (pref : Bool) (m : List ((JVal × JVal) × Jobj)) (c : Jobj)
    (h : (m.map Prod.fst).Nodup) : ((mergeStep pref m c).map Prod.fst).Nodup := by
  rw [mergeStep_eq]
  cases hf : m.find? (fun kv => decide (kv.1 = compKey c)) with
  | some kv0 =>
    show ((if pref then upsert m (compKey c) (pyUpdate kv0.2 c) else m).map Prod.fst).Nodup
    by_cases hp : pref
    · rw [if_pos hp]
      exact upsert_keys_nodup m (compKey c) _ h
    · rw [if_neg hp]
      exact h
  | none =>
    show ((m ++ [(compKey c, c)]).map Prod.fst).Nodup
    rw [List.map_append]
    refine List.Nodup.append h (by simp) ?_
    intro a ha hb
    simp only [List.map_cons, List.map_nil, List.mem_singleton] at hb
    obtain ⟨kv, hkv, hfst⟩ := List.mem_map.mp ha
    rw [List.find?_eq_none] at hf
    exact hf kv hkv (by simp [hfst, hb])

theorem mergeStep_keys_superset (pref : Bool) (m : List ((JVal × JVal) × Jobj)) (c : Jobj)
    (k0 : JVal × JVal) (h : k0 ∈ m.map Prod.fst) :
    k0 ∈ (mergeStep pref m c).map Prod.fst := by
  rw [mergeStep_eq]
  cases hf : m.find? (fun kv => decide (kv.1 = compKey c)) with
  | some kv0 =>
    show k0 ∈ (if pref then upsert m (compKey c) (pyUpdate kv0.2 c) else m).map Prod.fst
    by_cases hp : pref
    · rw [if_pos hp]
      exact upsert_keys_superset m (compKey c) k0 _ h
    · rw [if_neg hp]
      exact h
  | none =>
    show k0 ∈ (m ++ [(compKey c, c)]).map Prod.fst
    rw [List.map_append]
    exact List.mem_append_left _ h

theorem mergeStep_values (pref : Bool) (m : List ((JVal × JVal) × Jobj)) (c : Jobj)
    (P : Jobj → Prop)
    (hstable : ∀ old, P old → P c → P (pyUpdate old c))
    (hm : ∀ kv ∈ m, P kv.2) (hc : P c) :
    ∀ kv ∈ mergeStep pref m c, P kv.2 := by
  rw [mergeStep_eq]
  cases hf : m.find? (fun kv => decide (kv.1 = compKey c)) with
  | some kv0 =>
    obtain ⟨hmem, hkey⟩ := find?_key_some hf
    show ∀ kv ∈ (if pref then upsert m (compKey c) (pyUpdate kv0.2 c) else m), P kv.2
    by_cases hp : pref
    · rw [if_pos hp]
      exact upsert_values m (compKey c) _ P hm (hstable kv0.2 (hm kv0 hmem) hc)
    · rw [if_neg hp]
      exact hm
  | none =>
    show ∀ kv ∈ m ++ [(compKey c, c)], P kv.2
    intro kv hkv
    rcases List.mem_append.mp hkv with h | h
    · exact hm kv h
    · rw [List.mem_singleton.mp h]
      exact hc

/-- The by_key mapping built by _merge_components is well-formed. -/
theorem merge_by_key_wf (primary imported : List Jobj) (pref : Bool)
    (him : ∀ c ∈ imported, (c.map Prod.fst).Nodup) :
    ByKeyWF (imported.foldl (mergeStep pref)
      (primary.foldl (fun m c => upsert m (compKey c) c) [])) := by
  have h1 : ByKeyWF (primary.foldl (fun m c => upsert m (compKey c) c) []) := by
    refine foldl_invariant _ primary [] ?_ ⟨by simp, by simp⟩
    intro c _ m hm
    exact ⟨upsert_keyconsistent m (compKey c) c hm.1 rfl,
      upsert_keys_nodup m (compKey c) c hm.2⟩
  refine foldl_invariant _ imported _ ?_ h1
  intro c hc m hm
  exact ⟨mergeStep_keyconsistent pref m c (him c hc) hm.1,
    mergeStep_keys_nodup pref m c hm.2⟩

/-! ## Order properties of the (type, name) sort key -/

theorem strLtB_asymm (a b : String) (h : strLtB a b = true) : strLtB b a = false := by
  rw [Bool.eq_false_iff]
  intro hc
  have h2 := strLtB_trans a b a h hc
  rw [strLtB_irrefl] at h2
  exact absurd h2 (by simp)

theorem pairLeB_total (x y : String × String) : pairLeB x y || pairLeB y x := by
  unfold pairLeB
  by_cases h1 : strLtB x.1 y.1 = true
  · simp [h1]
  · by_cases h2 : strLtB y.1 x.1 = true
    · simp [h2]
    · have he : x.1 = y.1 := strLtB_connex _ _ (by simpa using h1) (by simpa using h2)
      have ht := strLeB_total x.2 y.2
      simp only [Bool.or_eq_true] at ht
      rcases ht with h | h
      · simp [he, h]
      · simp [he, h]

theorem pairLeB_trans (x y z : String × String) (h1 : pairLeB x y = true)
    (h2 : pairLeB y z = true) : pairLeB x z = true := by
  unfold pairLeB at h1 h2 ⊢
  simp only [Bool.or_eq_true, Bool.and_eq_true, beq_iff_eq] at h1 h2 ⊢
  rcases h1 with h1 | ⟨he1, hl1⟩
  · rcases h2 with h2 | ⟨he2, hl2⟩
    · exact Or.inl (strLtB_trans _ _ _ h1 h2)
    · exact Or.inl (he2 ▸ h1)
  · rcases h2 with h2 | ⟨he2, hl2⟩
    · exact Or.inl (he1 ▸ h2)
    · exact Or.inr ⟨he1.trans he2, strLeB_trans _ _ _ hl1 hl2⟩

theorem pairLeB_antisymm (x y : String × String) (h1 : pairLeB x y = true)
    (h2 : pairLeB y x = true) : x = y := by
  unfold pairLeB at h1 h2
  simp only [Bool.or_eq_true, Bool.and_eq_true, beq_iff_eq] at h1 h2
  rcases h1 with h1 | ⟨he1, hl1⟩
  · rcases h2 with h2 | ⟨he2, hl2⟩
    · have h3 := strLtB_asymm _ _ h1
      rw [h2] at h3
      exact absurd h3 (by simp)
    · rw [he2] at h1
      rw [strLtB_irrefl] at h1
      exact absurd h1 (by simp)
  · rcases h2 with h2 | ⟨he2, hl2⟩
    · rw [he1] at h2
      rw [strLtB_irrefl] at h2
      exact absurd h2 (by simp)
    · have hs : x.2 = y.2 := strLeB_antisymm _ _ hl1 hl2
      exact Prod.ext_iff.mpr ⟨he1, hs⟩

theorem compLeB_total (a b : Jobj) : compLeB a b || compLeB b a := pairLeB_total _ _

theorem compLeB_trans (a b c : Jobj) (h1 : compLeB a b = true) (h2 : compLeB b c = true) :
    compLeB a c = true := pairLeB_trans _ _ _ h1 h2

/-! ## String-typed records and values through the merge -/

theorem StrWF_pyUpdate (old c : Jobj) (hnd : (c.map Prod.fst).Nodup)
    (h1 : StrWF old) (h2 : StrWF c) : StrWF (pyUpdate old c) := by
  constructor
  · rw [jgetL_pyUpdate old c "name" (.str "") hnd]
    by_cases h : keepsField c "name"
    · rw [if_pos h]; exact h2.1
    · rw [if_neg h]; exact h1.1
  · rw [jgetL_pyUpdate old c "type" (.str "") hnd]
    by_cases h : keepsField c "type"
    · rw [if_pos h]; exact h2.2
    · rw [if_neg h]; exact h1.2

theorem merge_values_strwf (primary imported : List Jobj) (pref : Bool)
    (him : ∀ c ∈ imported, (c.map Prod.fst).Nodup)
    (hp : ∀ c ∈ primary, StrWF c) (hi : ∀ c ∈ imported, StrWF c) :
    ValsP StrWF (imported.foldl (mergeStep pref)
      (primary.foldl (fun m c => upsert m (compKey c) c) [])) := by
  have h1 : ValsP StrWF (primary.foldl (fun m c => upsert m (compKey c) c) []) := by
    refine foldl_invariant _ primary [] ?_ ?_
    · intro c hc m hm
      exact upsert_values m (compKey c) c StrWF hm (hp c hc)
    · intro kv hkv
      exact absurd hkv (List.not_mem_nil kv)
  refine foldl_invariant _ imported _ ?_ h1
  intro c hc m hm
  exact mergeStep_values pref m c StrWF
    (fun old ho hcw => StrWF_pyUpdate old c (him c hc) ho hcw) hm (hi c hc)

theorem merge_components_eq (p i : List Jobj) (f : Bool) :
    merge_components p i f = stableSort compLeB
      ((i.foldl (mergeStep f)
        (p.foldl (fun m c => upsert m (compKey c) c) [])).map Prod.snd) := rfl

theorem map_comp_snd_eq_fst (m : List ((JVal × JVal) × Jobj))
    (h : ∀ kv ∈ m, compKey kv.2 = kv.1) :
    (m.map Prod.snd).map compKey = m.map Prod.fst := by
  induction m with
  | nil => rfl
  | cons kv t ih =>
    simp only [List.map_cons]
    rw [h kv (by simp), ih (fun x hx => h x (by simp [hx]))]

theorem merge_components_keys_nodup (p i : List Jobj) (f : Bool)
    (him : ∀ c ∈ i, (c.map Prod.fst).Nodup) :
    ((merge_components p i f).map compKey).Nodup := by
  have hwf := merge_by_key_wf p i f him
  rw [merge_components_eq]
  have hperm := (stableSort_perm compLeB
    ((i.foldl (mergeStep f)
      (p.foldl (fun m c => upsert m (compKey c) c) [])).map Prod.snd)).map compKey
  rw [hperm.nodup_iff, map_comp_snd_eq_fst _ hwf.1]
  exact hwf.2

theorem merge_components_sorted (p i : List Jobj) (f : Bool) :
    (merge_components p i f).Pairwise (fun a b => compLeB a b = true) := by
  rw [merge_components_eq]
  exact pairwise_stableSort compLeB (fun _ => True)
    (fun x y _ _ => compLeB_total x y)
    (fun x y z _ _ _ h1 h2 => compLeB_trans x y z h1 h2) _ (fun _ _ => trivial)

theorem merge_components_strwf (p i : List Jobj) (f : Bool)
    (him : ∀ c ∈ i, (c.map Prod.fst).Nodup)
    (hp : ∀ c ∈ p, StrWF c) (hi : ∀ c ∈ i, StrWF c) :
    ∀ x ∈ merge_components p i f, StrWF x := by
  rw [merge_components_eq]
  intro x hx
  have hx2 := (mem_stableSort _ _ _).mp hx
  obtain ⟨kv, hkv, heq⟩ := List.mem_map.mp hx2
  rw [← heq]
  exact merge_values_strwf p i f him hp hi kv hkv

theorem compKey_eq_of_sortPair_eq (x y : Jobj) (hx : StrWF x) (hy : StrWF y)
    (h : sortPair x = sortPair y) : compKey x = compKey y := by
  obtain ⟨⟨nx, hnx⟩, ⟨tx, htx⟩⟩ := hx
  obtain ⟨⟨ny, hny⟩, ⟨ty, hty⟩⟩ := hy
  unfold sortPair at h
  rw [hnx, htx, hny, hty] at h
  simp only [asStr, Prod.mk.injEq] at h
  unfold compKey
  rw [hnx, htx, hny, hty, h.1, h.2]

theorem merge_sorted_unique_of_perm (out1 out2 : List Jobj)
    (hn1 : (out1.map compKey).Nodup)
    (hs1 : out1.Pairwise (fun a b => compLeB a b = true))
    (_hw1 : ∀ x ∈ out1, StrWF x)
    (hn2 : (out2.map compKey).Nodup)
    (hs2 : out2.Pairwise (fun a b => compLeB a b = true))
    (hw2 : ∀ x ∈ out2, StrWF x)
    (hperm : out2.Perm out1) : out2 = out1 := by
  have hne1 : out1.Pairwise (fun a b => compKey a ≠ compKey b) := List.pairwise_map.mp hn1
  have hne2 : out2.Pairwise (fun a b => compKey a ≠ compKey b) := List.pairwise_map.mp hn2
  refine eq_of_perm_of_pairwise out2 out1 hperm (hs2.and hne2) (hs1.and hne1) ?_
  intro x hx y hy hxy hyx
  exfalso
  have hsp : sortPair x = sortPair y := pairLeB_antisymm _ _ hxy.1 hyx.1
  exact hxy.2 (compKey_eq_of_sortPair_eq x y (hw2 x hx) (hw2 y hy) hsp)

/-- C2: for every primary list, imported list and prefer-imported flag
(over dict-faithful imported records, whose keys a Python dict cannot
duplicate), the merged component list contains at most one record per
(name, type) key and is sorted ascending by the (type, name) pair; and
for string-typed records the sorted order makes the output independent
of input order: any two merge outputs that are permutations of each
other are equal. -/
theorem claim_C2 (primary imported : List Jobj) (pref : Bool)
    (him : ∀ c ∈ imported, (c.map Prod.fst).Nodup) :
    ((merge_components primary imported pref).map compKey).Nodup ∧
    (merge_components primary imported pref).Pairwise (fun a b => compLeB a b = true) ∧
    (∀ primary2 imported2 pref2,
      (∀ c ∈ imported2, (c.map Prod.fst).Nodup) →
      (∀ c ∈ primary, StrWF c) → (∀ c ∈ imported, StrWF c) →
      (∀ c ∈ primary2, StrWF c) → (∀ c ∈ imported2, StrWF c) →
      (merge_components primary2 imported2 pref2).Perm
        (merge_components primary imported pref) →
      merge_components primary2 imported2 pref2 =
        merge_components primary imported pref) := by
  refine ⟨merge_components_keys_nodup primary imported pref him,
    merge_components_sorted primary imported pref, ?_⟩
  intro p2 i2 f2 him2 hp hi hp2 hi2 hperm
  exact merge_sorted_unique_of_perm _ _
    (merge_components_keys_nodup primary imported pref him)
    (merge_components_sorted primary imported pref)
    (merge_components_strwf primary imported pref him hp hi)
    (merge_components_keys_nodup p2 i2 f2 him2)
    (merge_components_sorted p2 i2 f2)
    (merge_components_strwf p2 i2 f2 him2 hp2 hi2)
    hperm

/-- Witness for C2: two concrete primary lists that are reorderings of
each other produce the identical merged output. -/
theorem claim_C2_witness :
    merge_components [[("name", JVal.str "a")], [("name", JVal.str "b")]] [] false =
      merge_components [[("name", JVal.str "b")], [("name", JVal.str "a")]] [] false := by
  have hstr1 : ∀ c ∈ [[("name", JVal.str "b")], [("name", JVal.str "a")]], StrWF c := by
    intro c hc
    simp only [List.mem_cons, List.mem_singleton, List.not_mem_nil, or_false] at hc
    rcases hc with rfl | rfl
    · exact ⟨⟨"b", rfl⟩, ⟨"", rfl⟩⟩
    · exact ⟨⟨"a", rfl⟩, ⟨"", rfl⟩⟩
  have hstr2 : ∀ c ∈ [[("name", JVal.str "a")], [("name", JVal.str "b")]], StrWF c := by
    intro c hc
    simp only [List.mem_cons, List.mem_singleton, List.not_mem_nil, or_false] at hc
    rcases hc with rfl | rfl
    · exact ⟨⟨"a", rfl⟩, ⟨"", rfl⟩⟩
    · exact ⟨⟨"b", rfl⟩, ⟨"", rfl⟩⟩
  have hnone : ∀ c ∈ ([] : List Jobj), (c.map Prod.fst).Nodup := by
    intro c hc
    exact absurd hc (List.not_mem_nil c)
  have hwfnone : ∀ c ∈ ([] : List Jobj), StrWF c := by
    intro c hc
    exact absurd hc (List.not_mem_nil c)
  exact (claim_C2 [[("name", JVal.str "b")], [("name", JVal.str "a")]] [] false hnone).2.2
    [[("name", JVal.str "a")], [("name", JVal.str "b")]] [] false hnone
    hstr1 hwfnone hstr2 hwfnone (by decide)

/-! ## C3: merging a set into itself -/

theorem foldl_upsert_all_new :
    ∀ (S : List Jobj) (m0 : List ((JVal × JVal) × Jobj)),
      (∀ c ∈ S, compKey c ∉ m0.map Prod.fst) → ((S.map compKey).Nodup) →
      S.foldl (fun m c => upsert m (compKey c) c) m0 =
        m0 ++ S.map (fun c => (compKey c, c)) := by
  intro S
  induction S with
  | nil => intro m0 _ _; simp
  | cons c S ih =>
    intro m0 hnew hnd
    simp only [List.foldl_cons]
    have hmem : memB (compKey c) (m0.map Prod.fst) = false := by
      rw [Bool.eq_false_iff]
      intro hc
      exact hnew c (by simp) ((memB_iff _ _).mp hc)
    have hup : upsert m0 (compKey c) c = m0 ++ [(compKey c, c)] := by
      unfold upsert
      rw [hmem]
      simp
    rw [hup]
    simp only [List.map_cons, List.nodup_cons] at hnd
    have harg : ∀ c2 ∈ S, compKey c2 ∉ (m0 ++ [(compKey c, c)]).map Prod.fst := by
      intro c2 hc2
      rw [List.map_append]
      intro hc
      rcases List.mem_append.mp hc with h | h
      · exact hnew c2 (by simp [hc2]) h
      · simp only [List.map_cons, List.map_nil, List.mem_singleton] at h
        exact hnd.1 (h ▸ List.mem_map_of_mem compKey hc2)
    rw [ih (m0 ++ [(compKey c, c)]) harg hnd.2]
    simp

theorem foldl_mergeStep_false_all_present :
    ∀ (L : List Jobj) (m : List ((JVal × JVal) × Jobj)),
      (∀ c ∈ L, compKey c ∈ m.map Prod.fst) →
      L.foldl (mergeStep false) m = m := by
  intro L
  induction L with
  | nil => intro m _; rfl
  | cons c L ih =>
    intro m hin
    simp only [List.foldl_cons]
    have hstep : mergeStep false m c = m := by
      rw [mergeStep_eq]
      cases hf : m.find? (fun kv => decide (kv.1 = compKey c)) with
      | some kv0 => rfl
      | none =>
        exfalso
        obtain ⟨kv, hkv, hfst⟩ := List.mem_map.mp (hin c (by simp))
        rw [List.find?_eq_none] at hf
        exact hf kv hkv (by simp [hfst])
    rw [hstep]
    exact ih m (fun c2 hc2 => hin c2 (by simp [hc2]))

/-- C3 counterexample: the importer can deliver two records that share
a (name, type) key while differing in version; merging that set into
itself with prefer-imported false silently drops one of them, so the
primary set is not unchanged. -/
theorem claim_C3_ce :
    (import_components [ceDoc3]).length = 2 ∧
    (merge_components (import_components [ceDoc3]) (import_components [ceDoc3])
      false).length = 1 ∧
    normComponent (mkObj [("name", .str "a"), ("version", .str "1")]) ∈
      import_components [ceDoc3] ∧
    normComponent (mkObj [("name", .str "a"), ("version", .str "1")]) ∉
      merge_components (import_components [ceDoc3]) (import_components [ceDoc3]) false := by
  decide

/-- C3 (amended): when the component set S holds no two records sharing
a (name, type) key, merging S as primary with S as imported under
prefer-imported false returns exactly the records of S (as a
permutation: only the deterministic sort reorders them). -/
theorem claim_C3 (S : List Jobj) (hnd : (S.map compKey).Nodup) :
    (merge_components S S false).Perm S := by
  have h1 : S.foldl (fun m c => upsert m (compKey c) c)
      ([] : List ((JVal × JVal) × Jobj)) = S.map (fun c => (compKey c, c)) := by
    have h := foldl_upsert_all_new S [] (by simp) hnd
    simpa using h
  have h2 : S.foldl (mergeStep false) (S.map (fun c => (compKey c, c))) =
      S.map (fun c => (compKey c, c)) := by
    apply foldl_mergeStep_false_all_present
    intro c hc
    rw [List.map_map]
    show compKey c ∈ S.map (Prod.fst ∘ fun c => (compKey c, c))
    exact List.mem_map_of_mem _ hc
  rw [merge_components_eq, h1, h2]
  have h3 : (S.map (fun c => (compKey c, c))).map Prod.snd = S := by
    rw [List.map_map]
    exact List.map_id S
  rw [h3]
  exact stableSort_perm _ _

/-- Witness for C3 at a concrete one-record set. -/
theorem claim_C3_witness :
    (merge_components [pinComp "a" "1"] [pinComp "a" "1"] false).Perm [pinComp "a" "1"] :=
  claim_C3 [pinComp "a" "1"] (by decide)

/-! ## C9: the model component survives assembly -/

theorem pyOrStr_eq (s d : String) : pyOrStr s d = if s = "" then d else s := by
  unfold pyOrStr
  by_cases h : s = ""
  · simp [h]
  · simp [h]

theorem import_components_nodup_keys (docs : List JVal) :
    ∀ x ∈ import_components docs, (x.map Prod.fst).Nodup := by
  intro x hx
  rw [import_components_eq] at hx
  have hx2 := keepFirstBy_subset compKey3 _ x hx
  rw [List.mem_flatMap] at hx2
  obtain ⟨d, _, hxd⟩ := hx2
  unfold docComponents at hxd
  obtain ⟨c0, _, heq⟩ := List.mem_map.mp hxd
  rw [← heq]
  rw [show (normComponent c0).map Prod.fst =
    ["name", "version", "bom_ref", "purl", "type", "source"] from rfl]
  decide

/-- C9: every successful generate_aibom output contains a component of
type ai-model whose name is the requested model identifier, or the
placeholder when the identifier is empty; no merge step, whichever way
prefer-imported is set and whatever is imported, removes this entry. -/
theorem claim_C9 (options : GenerateOptions) (now : String) :
    ∃ c ∈ (generate_aibom options now).components,
      jgetL c "type" (.str "") = .str "ai-model" ∧
      jgetL c "name" (.str "") =
        .str (if options.model_id = "" then "<unknown-model>" else options.model_id) := by
  have hcomp : (generate_aibom options now).components =
      merge_components
        (model_component options.model_id ::
          ((parse_requirements options.reqLines).map runtimeComp ++
            system_components options.system))
        (import_components options.import_sbom) options.prefer_imported := rfl
  have hKval : compKey (model_component options.model_id) =
      (.str (pyOrStr options.model_id "<unknown-model>"), .str "ai-model") := rfl
  have h0 : upsert [] (compKey (model_component options.model_id))
      (model_component options.model_id) =
      [(compKey (model_component options.model_id), model_component options.model_id)] := rfl
  have hbase : KeyInv (compKey (model_component options.model_id))
      [(compKey (model_component options.model_id), model_component options.model_id)] := by
    constructor
    · intro kv hkv
      rw [List.mem_singleton.mp hkv]
    · simp
  have h1 : KeyInv (compKey (model_component options.model_id))
      (((parse_requirements options.reqLines).map runtimeComp ++
          system_components options.system).foldl
        (fun m c => upsert m (compKey c) c)
        [(compKey (model_component options.model_id), model_component options.model_id)]) := by
    refine foldl_invariant _ _ _ ?_ hbase
    intro c _ m hm
    exact ⟨upsert_keyconsistent m (compKey c) c hm.1 rfl,
      upsert_keys_superset m (compKey c) _ c hm.2⟩
  have h2 : KeyInv (compKey (model_component options.model_id))
      ((import_components options.import_sbom).foldl (mergeStep options.prefer_imported)
        ((model_component options.model_id ::
          ((parse_requirements options.reqLines).map runtimeComp ++
            system_components options.system)).foldl
          (fun m c => upsert m (compKey c) c) [])) := by
    rw [List.foldl_cons, h0]
    refine foldl_invariant _ _ _ ?_ h1
    intro c hc m hm
    exact ⟨mergeStep_keyconsistent options.prefer_imported m c
        (import_components_nodup_keys options.import_sbom c hc) hm.1,
      mergeStep_keys_superset options.prefer_imported m c _ hm.2⟩
  obtain ⟨hcons, hKmem⟩ := h2
  obtain ⟨kv, hkv, hfst⟩ := List.mem_map.mp hKmem
  refine ⟨kv.2, ?_, ?_, ?_⟩
  · rw [hcomp, merge_components_eq]
    rw [mem_stableSort]
    exact List.mem_map_of_mem Prod.snd hkv
  · have hck : compKey kv.2 = (.str (pyOrStr options.model_id "<unknown-model>"),
        .str "ai-model") := by
      rw [hcons kv hkv, hfst, hKval]
    have := congrArg Prod.snd hck
    simpa [compKey] using this
  · have hck : compKey kv.2 = (.str (pyOrStr options.model_id "<unknown-model>"),
        .str "ai-model") := by
      rw [hcons kv hkv, hfst, hKval]
    have h := congrArg Prod.fst hck
    simp only [compKey] at h
    rw [h, pyOrStr_eq]
